import Mathlib

/-!
Verification development for the PDDL language-analysis engine:
a shallow embedding of the tokenizer and syntax-tree layer (spec sections 4.1
and 4.2), the problem extractor (`common/src/PddlProblemParser.ts`) and the
workspace model (`common/src/PddlWorkspace.ts`), together with theorems
settling the frozen claims about them.
-/

namespace Pddl

/-! ## Tokens and the tokenizer

Modelled from the spec: the tokenizer (`PddlTokenizer.ts`) is not among the
reviewed sources.  Spec 4.1: brackets are tracked by a counting scanner; an
open bracket immediately followed by a known keyword from a closed set
(operators, section names) is classified as an operator-bracket token whose
text includes the keyword (token text literally "(at"), otherwise it is a
plain open bracket.  Comments run from a semicolon to end of line and are
preserved.  Identifiers, numbers and question-mark parameters are classified
by pattern.
-/

inductive PddlTokenType where
  | document
  | openBracket
  | openBracketOperator
  | closeBracket
  | comment
  | whitespace
  | parameter
  | other
deriving DecidableEq, Repr

structure PddlToken where
  type : PddlTokenType
  tokenText : String
deriving DecidableEq, Repr

def isWsChar (c : Char) : Bool :=
  c == ' ' || c == '\t' || c == '\n' || c == '\r'

/-- Lower-casing, spelled over the character list so that it evaluates inside
the kernel (the library `String.toLower` does not). -/
def toLowerStr (s : String) : String := String.mk (s.toList.map Char.toLower)

def startsWithStr (s pre : String) : Bool := pre.toList.isPrefixOf s.toList

def dropOneStr (s : String) : String := String.mk (s.toList.drop 1)

def isWordChar (c : Char) : Bool :=
  c.isAlpha || c.isDigit || c == '-' || c == '_' || c == ':' || c == '=' ||
  c == '<' || c == '>' || c == '+' || c == '*' || c == '/' || c == '!'

/-- Modelled from the spec: the closed set of keywords that turn an open
bracket into an operator bracket (spec 4.1 lists operators and section names
such as `:predicates` and `:init`; `define`, `domain` and `problem` must be in
the set because the tree accessors look brackets up by those keywords). -/
def knownBracketKeywords : List String :=
  ["define", "domain", "problem",
   "and", "or", "not", "at", "=", "forall", "exists", "imply", "either",
   "over", "assign", "increase", "decrease", "supply-demand",
   "minimize", "maximize", ">", "<", ">=", "<=", "+", "-", "*", "/",
   ":requirements", ":types", ":constants", ":predicates", ":functions",
   ":constraints", ":action", ":durative-action", ":derived",
   ":objects", ":init", ":goal", ":metric", ":domain"]

/-- One tokenizer step function, driven by fuel so that it is structurally
recursive (each step consumes at least one character, so fuel equal to the
length of the input suffices). -/
def tokenizeAux : Nat → List Char → List PddlToken
  | 0, _ => []
  | _, [] => []
  | fuel + 1, c :: cs =>
    if c == '(' then
      let word := cs.takeWhile isWordChar
      let wordStr := String.mk word
      if knownBracketKeywords.contains (toLowerStr wordStr) && word ≠ [] then
        ⟨.openBracketOperator, "(" ++ wordStr⟩ ::
          tokenizeAux fuel (cs.drop word.length)
      else
        ⟨.openBracket, "("⟩ :: tokenizeAux fuel cs
    else if c == ')' then
      ⟨.closeBracket, ")"⟩ :: tokenizeAux fuel cs
    else if c == ';' then
      let rest := cs.takeWhile (fun d => d != '\n')
      ⟨.comment, String.mk (c :: rest)⟩ ::
        tokenizeAux fuel (cs.drop rest.length)
    else if isWsChar c then
      let rest := cs.takeWhile isWsChar
      ⟨.whitespace, String.mk (c :: rest)⟩ ::
        tokenizeAux fuel (cs.drop rest.length)
    else if c == '?' then
      let rest := cs.takeWhile isWordChar
      ⟨.parameter, String.mk (c :: rest)⟩ ::
        tokenizeAux fuel (cs.drop rest.length)
    else
      let rest := cs.takeWhile
        (fun d => !(d == '(' || d == ')' || d == ';' || isWsChar d))
      ⟨.other, String.mk (c :: rest)⟩ ::
        tokenizeAux fuel (cs.drop rest.length)

def tokenize (text : String) : List PddlToken :=
  tokenizeAux (text.length + 1) text.toList

/-! ## Syntax tree

Modelled from the spec: the tree builder (`PddlSyntaxTreeBuilder.ts`) is not
among the reviewed sources.  Spec 4.2: a single left-to-right pass with an
explicit stack of open bracket nodes; non-bracket tokens attach as leaves of
the current top of stack; a close bracket pops the stack; a stray close at the
top level is recorded as offending and ignored structurally; brackets still
open at end of input stay unclosed.  Spec 3: the children of a bracket node
lie strictly between its own token and its matching close bracket.
-/

inductive PddlSyntaxNode where
  | mk (token : PddlToken) (children : List PddlSyntaxNode) (closed : Bool)

namespace PddlSyntaxNode

def token : PddlSyntaxNode → PddlToken
  | .mk t _ _ => t

def children : PddlSyntaxNode → List PddlSyntaxNode
  | .mk _ cs _ => cs

def closed : PddlSyntaxNode → Bool
  | .mk _ _ b => b

end PddlSyntaxNode

mutual

/-- Number of nodes in a tree; used as a recursion bound elsewhere. -/
def nodeSize : PddlSyntaxNode → Nat
  | .mk _ cs _ => nodeListSize cs + 1

def nodeListSize : List PddlSyntaxNode → Nat
  | [] => 0
  | n :: ns => nodeSize n + nodeListSize ns

end

def isOpenBracketType (t : PddlTokenType) : Bool :=
  t == .openBracket || t == .openBracketOperator

/-- `isOpenBracket` of `PddlTokenizer.ts` (signature used by
`PddlProblemParser.ts`): true for plain and operator open brackets. -/
def isOpenBracket (t : PddlToken) : Bool :=
  isOpenBracketType t.type

/-- Builds a list of sibling nodes from a token stream.  Returns the nodes,
the unconsumed tokens, and whether the list was terminated by a close
bracket.  `atTop` distinguishes the document level (where a stray close
bracket is skipped as an offending token) from a nested level (where it closes
the enclosing bracket).  Fuel decreases on every call; fuel exceeding the
token count never runs out because every step consumes at least one token. -/
def buildList : Nat → Bool → List PddlToken →
    (List PddlSyntaxNode × List PddlToken × Bool)
  | 0, _, ts => ([], ts, false)
  | _, _, [] => ([], [], false)
  | fuel + 1, atTop, t :: rest =>
    if t.type == .closeBracket then
      if atTop then
        buildList fuel atTop rest
      else
        ([], rest, true)
    else if isOpenBracket t then
      let nested := buildList fuel false rest
      let node := PddlSyntaxNode.mk t nested.1 nested.2.2
      let sibs := buildList fuel atTop nested.2.1
      (node :: sibs.1, sibs.2.1, sibs.2.2)
    else
      let sibs := buildList fuel atTop rest
      (PddlSyntaxNode.mk t [] false :: sibs.1, sibs.2.1, sibs.2.2)

/-- The root document node owning all top-level nodes (spec 3). -/
def buildTree (tokens : List PddlToken) : PddlSyntaxNode :=
  PddlSyntaxNode.mk ⟨.document, ""⟩ (buildList (tokens.length + 1) true tokens).1 false

def parseTreeOf (text : String) : PddlSyntaxNode :=
  buildTree (tokenize text)

mutual

/-- Verbatim source text of a node: its own token text, the text of all its
children, and the matching close bracket when one was found.  Models the
offset-based `getText` of `PddlSyntaxNode.ts`, exact because token spans tile
the source (spec 8). -/
def PddlSyntaxNode.getText : PddlSyntaxNode → String
  | .mk t cs closed =>
    t.tokenText ++ getTextList cs ++ (if closed then ")" else "")

def getTextList : List PddlSyntaxNode → String
  | [] => ""
  | n :: ns => n.getText ++ getTextList ns

end

namespace PddlSyntaxNode

/-- `getNestedText` of `PddlSyntaxNode.ts`: concatenated text of all child
nodes. -/
def getNestedText (n : PddlSyntaxNode) : String :=
  String.join (n.children.map getText)

/-- `getNestedNonCommentText`: concatenated text of all non-comment child
nodes. -/
def getNestedNonCommentText (n : PddlSyntaxNode) : String :=
  String.join ((n.children.filter (fun c => c.token.type != .comment)).map getText)

/-- `getFirstOpenBracket(keyword)`: first child whose token text is the open
bracket of the given keyword (case-insensitive). -/
def getFirstOpenBracket (n : PddlSyntaxNode) (keyword : String) :
    Option PddlSyntaxNode :=
  n.children.find? (fun c =>
    isOpenBracket c.token &&
      toLowerStr c.token.tokenText == "(" ++ toLowerStr keyword)

def getNonWhitespaceChildren (n : PddlSyntaxNode) : List PddlSyntaxNode :=
  n.children.filter (fun c => c.token.type != .whitespace)

/-- `getFirstChild(type, /.*/)`: first child of the given token type. -/
def getFirstChildOfType (n : PddlSyntaxNode) (t : PddlTokenType) :
    Option PddlSyntaxNode :=
  n.children.find? (fun c => c.token.type == t)

def getChildrenOfType (n : PddlSyntaxNode) (t : PddlTokenType)
    (textMatch : String → Bool) : List PddlSyntaxNode :=
  n.children.filter (fun c => c.token.type == t && textMatch c.token.tokenText)

end PddlSyntaxNode

/-! ## Variable values (`ProblemInfo.ts`, modelled from the spec)

Modelled from the spec: `ProblemInfo.ts` is not among the reviewed sources.
Spec 3: an initial fact is a `TimedVariableValue` whose value is boolean,
numeric, or an explicit "unsupported, kept verbatim" value.  A numeric value
may be the JavaScript NaN (when `parseFloat` fails), modelled as `none`.
-/

inductive VariableValue where
  | boolValue (variableName : String) (value : Bool)
  | numericValue (variableName : String) (value : Option ℚ)
  | unsupported (text : String)
deriving DecidableEq, Repr

/-- Modelled from the spec: negation of a fact value (used for `(not F)`),
following JavaScript boolean negation of the wrapped value (`!0`, `!NaN` are
true, `!x` of a nonzero number is false). -/
def VariableValue.negate : VariableValue → VariableValue
  | .boolValue n v => .boolValue n (!v)
  | .numericValue n v => .boolValue n (v.getD 0 == 0)
  | .unsupported t => .unsupported t

structure TimedVariableValue where
  time : ℚ
  value : VariableValue
deriving DecidableEq, Repr

/-- `TimedVariableValue.from` of `ProblemInfo.ts` (`from` is reserved in
Lean). -/
def TimedVariableValue.ofTime (time : ℚ) (value : VariableValue) :
    TimedVariableValue :=
  ⟨time, value⟩

/-- JavaScript `parseFloat` restricted to decimal literals: skips leading
whitespace, optional sign, integer digits, optional fraction; `none` stands
for NaN.  (Exponents never occur in the inputs of interest.) -/
def parseFloatQ (s : String) : Option ℚ :=
  let cs := s.toList.dropWhile isWsChar
  let signAndRest : ℤ × List Char :=
    match cs with
    | '-' :: rest => (-1, rest)
    | '+' :: rest => (1, rest)
    | _ => (1, cs)
  let sign := signAndRest.1
  let cs1 := signAndRest.2
  let intPart := cs1.takeWhile Char.isDigit
  let cs2 := cs1.drop intPart.length
  let fracPart :=
    match cs2 with
    | '.' :: rest => rest.takeWhile Char.isDigit
    | _ => []
  if intPart.isEmpty && fracPart.isEmpty then none
  else
    let digitsVal : List Char → ℕ :=
      fun ds => ds.foldl (fun a c => a * 10 + (c.toNat - '0'.toNat)) 0
    some (Rat.divInt
      (sign * ((digitsVal intPart : ℤ) * 10 ^ fracPart.length + digitsVal fracPart))
      ((10 : ℤ) ^ fracPart.length))

/-! ## Problem extraction (`common/src/PddlProblemParser.ts`) -/

/-- `stripComments` of `FileInfo.ts` (absent from the reviewed sources),
modelled from the spec: comments begin at a semicolon and run to end of
line (line breaks themselves are preserved). -/
def stripCommentsAux : List Char → Bool → List Char
  | [], _ => []
  | c :: cs, inComment =>
    if c == '\n' then c :: stripCommentsAux cs false
    else if inComment then stripCommentsAux cs true
    else if c == ';' then stripCommentsAux cs true
    else c :: stripCommentsAux cs false

def stripComments (pddlText : String) : String :=
  String.mk (stripCommentsAux pddlText.toList false)

def skipWs (cs : List Char) : List Char := cs.dropWhile isWsChar

/-- Case-insensitive literal matching, one regex literal at a time. -/
def matchLitCI : List Char → List Char → Option (List Char)
  | [], cs => some cs
  | _ :: _, [] => none
  | l :: ls, c :: cs => if c.toLower == l.toLower then matchLitCI ls cs else none

/-- Regex `\s+` followed by `\s*`-absorption: requires at least one
whitespace character and consumes the whole run. -/
def ws1 : List Char → Option (List Char)
  | [] => none
  | c :: rest => if isWsChar c then some (skipWs rest) else none

/-- Checks regex `\s*\)` on `restInRun ++ after` and returns the remainder
past the close bracket. -/
def closeParenTail (restInRun after : List Char) : Option (List Char) :=
  match skipWs (restInRun ++ after) with
  | ')' :: rest => some rest
  | _ => none

/-- Backtracking for regex `(\S+)\s*\)`: the capture is the longest nonempty
prefix of the non-whitespace run such that the rest still matches
`\s*\)`. -/
def captureGo (run after : List Char) : Nat → Option (String × List Char)
  | 0 => none
  | k + 1 =>
    match closeParenTail (run.drop (k + 1)) after with
    | some rest => some (String.mk (run.take (k + 1)), rest)
    | none => captureGo run after k

def captureNameRP (cs : List Char) : Option (String × List Char) :=
  let run := cs.takeWhile (fun c => !isWsChar c)
  let after := cs.drop run.length
  captureGo run after run.length

/-- The anchored problem pattern of `PddlProblemParser.ts`:
`^\s*\(define\s*\(problem\s+(\S+)\s*\)\s*\(:domain\s+(\S+)\s*\)` with flags
`gi`; returns the problem-name and domain-name captures. -/
def problemPatternMatch (text : String) : Option (String × String) := do
  let cs := skipWs text.toList
  let cs ← matchLitCI "(define".toList cs
  let cs := skipWs cs
  let cs ← matchLitCI "(problem".toList cs
  let cs ← ws1 cs
  let (problemName, cs) ← captureNameRP cs
  let cs := skipWs cs
  let cs ← matchLitCI "(:domain".toList cs
  let cs ← ws1 cs
  let (domainName, _) ← captureNameRP cs
  pure (problemName, domainName)

/-- Modelled from the spec: `PddlInheritanceParser.parseInheritance` is not
among the reviewed sources.  Spec 4.3: scan tokens left to right, buffer
names until a `-` separator, then assign the buffered names as children of
the following parent name; names with no following `-` attach to the implicit
default root `object`.  Produces the ordered child-to-parent edge list. -/
def parseInheritanceAux : List String → List String → List (String × String)
  | [], buffer => buffer.map (fun c => (c, "object"))
  | w :: rest, buffer =>
    if w = "-" then
      match rest with
      | parent :: rest2 =>
        buffer.map (fun c => (c, parent)) ++ parseInheritanceAux rest2 []
      | [] => buffer.map (fun c => (c, "object"))
    else
      parseInheritanceAux rest (buffer ++ [w])

/-- Splits a string into its maximal whitespace-free words. -/
def wordsOfAux : List Char → List Char → List String
  | [], acc => if acc.isEmpty then [] else [String.mk acc.reverse]
  | c :: cs, acc =>
    if isWsChar c then
      if acc.isEmpty then wordsOfAux cs []
      else String.mk acc.reverse :: wordsOfAux cs []
    else wordsOfAux cs (c :: acc)

def wordsOf (s : String) : List String := wordsOfAux s.toList []

def parseInheritance (declarationText : String) : List (String × String) :=
  parseInheritanceAux (wordsOf declarationText) []

/-- Modelled from the spec: `PddlInheritanceParser.toTypeObjects` groups the
child-to-parent edges into a parent-to-ordered-children mapping. -/
def addTypeObject : List (String × List String) → String → String →
    List (String × List String)
  | [], typeName, obj => [(typeName, [obj])]
  | (t, os) :: rest, typeName, obj =>
    if t = typeName then (t, os ++ [obj]) :: rest
    else (t, os) :: addTypeObject rest typeName obj

def toTypeObjects (edges : List (String × String)) :
    List (String × List String) :=
  edges.foldl (fun acc e => addTypeObject acc e.2 e.1) []

/-- `ProblemInfo` restricted to the semantic fields the claims mention
(name, referenced domain name, object-to-type assignment, initial facts,
supply-demand names).  The requirements and constraints sub-parsers live in
sources that are absent and are referenced by no claim, so those fields are
not modelled. -/
structure ProblemInfo where
  name : String
  domainName : String
  objects : List (String × List String)
  inits : List TimedVariableValue
  supplyDemands : List String
deriving DecidableEq, Repr

/-- `parseVariableValue` of `PddlProblemParser.ts`, fuel-driven: the only
recursion is through the first bracket child of a `(not ...)` node, so fuel
`nodeSize node` always suffices. -/
def parseVariableValueF : Nat → PddlSyntaxNode → Option VariableValue
  | 0, _ => none
  | fuel + 1, node =>
    if node.token.tokenText == "(=" then
      let tokens := (node.getNonWhitespaceChildren).filter
        (fun n => n.token.type != .comment)
      match tokens with
      | t0 :: t1 :: _ =>
        if t0.token.type == .openBracket && t1.token.type == .other then
          some (.numericValue t0.getNestedText (parseFloatQ t1.getText))
        else none
      | _ => none
    else if node.token.tokenText == "(not" then
      let nested :=
        match node.getFirstChildOfType .openBracket with
        | some c => some c
        | none => node.getFirstChildOfType .openBracketOperator
      match nested with
      | none => none
      | some c => (parseVariableValueF fuel c).map VariableValue.negate
    else if ["(forall", "(assign", "(increase", "(decrease"].contains
        node.token.tokenText then
      some (.unsupported node.getText)
    else
      if node.children.any (fun child => isOpenBracket child.token) then none
      else some (.boolValue (dropOneStr node.token.tokenText ++ node.getNestedText) true)

def parseVariableValue (node : PddlSyntaxNode) : Option VariableValue :=
  parseVariableValueF (nodeSize node) node

/-- `parseInit` of `PddlProblemParser.ts`. -/
def parseInit (bracket : PddlSyntaxNode) : Option TimedVariableValue :=
  let fallback := (parseVariableValue bracket).map (TimedVariableValue.ofTime 0)
  if bracket.token.tokenText == "(at" then
    let tokens := (bracket.getNonWhitespaceChildren).filter
      (fun n => n.token.type != .comment)
    match tokens with
    | t0 :: t1 :: _ =>
      match parseFloatQ t0.getText with
      | some time =>
        match parseVariableValue t1 with
        | some variableValue => some (TimedVariableValue.ofTime time variableValue)
        | none => fallback
      | none => fallback
    | _ => fallback
  else fallback

def isSupplyDemandText (s : String) : Bool :=
  startsWithStr (toLowerStr s) "(supply-demand"

/-- `parseSupplyDemand` of `PddlProblemParser.ts`: keeps the first
non-whitespace child when it is a plain identifier. -/
def parseSupplyDemand (node : PddlSyntaxNode) : Option String :=
  match node.getNonWhitespaceChildren with
  | t0 :: _ => if t0.token.type == .other then some t0.getText else none
  | [] => none

/-- `parseInitSection` of `PddlProblemParser.ts`. -/
def parseInitSection (initNode : PddlSyntaxNode) :
    List TimedVariableValue × List String :=
  let timedVariableValues :=
    ((initNode.children.filter (fun node => isOpenBracket node.token)).filter
      (fun node => !isSupplyDemandText node.token.tokenText)).filterMap parseInit
  let supplyDemands :=
    (initNode.getChildrenOfType .openBracketOperator isSupplyDemandText).filterMap
      parseSupplyDemand
  (timedVariableValues, supplyDemands)

/-- `getDefineNodeOrThrow` target: the first top-level `(define` bracket. -/
def getDefineNode (root : PddlSyntaxNode) : Option PddlSyntaxNode :=
  root.getFirstOpenBracket "define"

/-- `getProblemStructure` of `PddlProblemParser.ts`, restricted to the
modelled fields (`:objects` and `:init`). -/
def getProblemStructure (defineNode : PddlSyntaxNode) (p : ProblemInfo) :
    ProblemInfo :=
  let p :=
    match defineNode.getFirstOpenBracket ":objects" with
    | some objectsNode =>
      { p with objects :=
          toTypeObjects (parseInheritance objectsNode.getNestedNonCommentText) }
    | none => p
  match defineNode.getFirstOpenBracket ":init" with
  | some initNode =>
    let vs := parseInitSection initNode
    { p with inits := vs.1, supplyDemands := vs.2 }
  | none => p

/-- `PddlProblemParser.parse` (without the optional pre-processor, which is
not configured in the workspace path): matches the anchored problem pattern
on the comment-stripped text, then extracts the problem structure from the
syntax tree built from the file text.  `Except.error` models the exception
thrown by `getDefineNodeOrThrow`; `Except.ok none` means the file is not a
problem file. -/
def parseProblem (fileText : String) : Except String (Option ProblemInfo) :=
  let pddlText := stripComments fileText
  match problemPatternMatch pddlText with
  | none => .ok none
  | some (problemName, domainName) =>
    match getDefineNode (parseTreeOf fileText) with
    | none => .error "Unable to find defineNode"
    | some defineNode =>
      .ok (some (getProblemStructure defineNode
        ⟨problemName, domainName, [], [], []⟩))

/-! ## The workspace model (`common/src/PddlWorkspace.ts`)

`FileInfo` is flattened into one record with a kind tag (the spec's own
suggested modelling, spec 9): `name` is the domain name of a domain file or
the problem name of a problem file; `domainName`/`problemName` are the names
a problem, plan or happenings file refers to.  `FileStatus` is the
two-state machine of spec 3/4.6 (`FileInfo.ts` is absent from the reviewed
sources).  Maps keep insertion order, as JavaScript `Map` does, and are
modelled as association lists.  The emitted events are accumulated in a log
(newest first), modelling the synchronous listener invocations of spec 9. -/

inductive FileStatus where
  | dirty
  | parsed
deriving DecidableEq, Repr

inductive FileKind where
  | domain
  | problem
  | plan
  | happenings
  | unknown
deriving DecidableEq, Repr

inductive PddlLanguage where
  | PDDL
  | PLAN
  | HAPPENINGS
deriving DecidableEq, Repr

inductive EventSym where
  | INSERTED
  | UPDATED
  | REMOVING
deriving DecidableEq, Repr

structure WFile where
  fileUri : String
  language : PddlLanguage
  version : Nat
  status : FileStatus
  text : String
  kind : FileKind
  name : String
  domainName : String
  problemName : String
deriving DecidableEq, Repr

def WFile.isDomain (f : WFile) : Bool := f.kind == .domain
def WFile.isProblem (f : WFile) : Bool := f.kind == .problem
def WFile.isPlan (f : WFile) : Bool := f.kind == .plan
def WFile.isHappenings (f : WFile) : Bool := f.kind == .happenings

/-- Association list with JavaScript `Map` semantics: `set` updates an
existing key in place (keeping its position) and appends a new key;
`lookup` returns the value stored under the first matching key. -/
def lookupA {α : Type} : List (String × α) → String → Option α
  | [], _ => none
  | e :: rest, k => if e.1 == k then some e.2 else lookupA rest k

def setA {α : Type} : List (String × α) → String → α → List (String × α)
  | [], k, v => [(k, v)]
  | (k', v') :: rest, k, v =>
    if k' == k then (k, v) :: rest else (k', v') :: setA rest k v

def removeA {α : Type} (m : List (String × α)) (k : String) :
    List (String × α) :=
  m.filter (fun e => e.1 != k)

def valuesA {α : Type} (m : List (String × α)) : List α :=
  m.map (fun e => e.2)

/-- `lowerCaseEquals` of `PddlWorkspace.ts` (the null/undefined branches
cannot arise in the model, where names are always strings). -/
def lowerCaseEquals (first second : String) : Bool :=
  toLowerStr first == toLowerStr second

/-- Scheme of a URI: the text before the first colon (`vscode-uri`
behaviour on the URIs the workspace sees). -/
def uriScheme (uri : String) : String :=
  String.mk (uri.toList.takeWhile (fun c => c != ':'))

/-- Remainder of the character list after the first `://`, when present. -/
def splitSchemeAux : List Char → Option (List Char)
  | ':' :: '/' :: '/' :: rest => some rest
  | _ :: rest => splitSchemeAux rest
  | [] => none

/-- Directory part of a path: everything before the last slash, or `.` when
the path has no slash (the `path.dirname` convention). -/
def dirnameChars (cs : List Char) : List Char :=
  match cs.reverse.dropWhile (fun c => c != '/') with
  | [] => ['.']
  | _ :: restRev => restRev.reverse

/-- `Util.fsPath` followed by `path.dirname` (both external): drops the
scheme separator and cuts the path at its last slash. -/
def folderPathOf (uri : String) : String :=
  let cs := uri.toList
  let path :=
    match splitSchemeAux cs with
    | some rest => rest
    | none => cs
  String.mk (dirnameChars path)

/-- A folder is the uri-keyed file map of `Folder` in `PddlWorkspace.ts`. -/
abbrev FolderFiles : Type := List (String × WFile)

/-- `Folder.add`: files whose URI scheme is `git` are not stored. -/
def folderAdd (files : FolderFiles) (fileInfo : WFile) : FolderFiles :=
  if uriScheme fileInfo.fileUri != "git" then
    setA files fileInfo.fileUri fileInfo
  else files

/-- `Folder.getProblemFileWithName`. -/
def getProblemFileWithName (files : FolderFiles) (problemName : String) :
    Option WFile :=
  ((valuesA files).filter WFile.isProblem).find?
    (fun problemInfo => lowerCaseEquals problemInfo.name problemName)

/-- `Folder.getProblemFilesFor`: problems of the folder whose referenced
domain name matches the domain's name. -/
def folderProblemFilesFor (files : FolderFiles) (domainInfo : WFile) :
    List WFile :=
  ((valuesA files).filter WFile.isProblem).filter
    (fun problemInfo => lowerCaseEquals problemInfo.domainName domainInfo.name)

/-- `Folder.getDomainFilesFor`: domains of the folder whose name matches the
problem's referenced domain name. -/
def folderDomainFilesFor (files : FolderFiles) (problemInfo : WFile) :
    List WFile :=
  ((valuesA files).filter WFile.isDomain).filter
    (fun domainInfo => lowerCaseEquals domainInfo.name problemInfo.domainName)

structure WState where
  folders : List (String × FolderFiles)
  problemToDomainMap : List (String × String)
  planToProblemMap : List (String × String)
  lastVersionUpdateEmitted : List (String × Nat)
  events : List (EventSym × String × Nat)
deriving DecidableEq

def emptyState : WState := ⟨[], [], [], [], []⟩

/-- The external parser (`Parser.tryDomain` / `tryProblem` / `parsePlan` /
`parseHappenings` dispatched by `PddlWorkspace.parseFile`): from URI,
language, version and text to the freshly parsed `FileInfo`. -/
def ParseFn : Type := String → PddlLanguage → Nat → String → WFile

namespace WState

def getFileInfo (s : WState) (fileUri : String) : Option WFile :=
  match lookupA s.folders (folderPathOf fileUri) with
  | some files => lookupA files fileUri
  | none => none

def getFolderOf (s : WState) (fileInfo : WFile) : Option FolderFiles :=
  lookupA s.folders (folderPathOf fileInfo.fileUri)

def getAllFiles (s : WState) : List WFile :=
  s.folders.foldr (fun fp acc => valuesA fp.2 ++ acc) []

def getAllDirtyFiles (s : WState) : List WFile :=
  (s.getAllFiles).filter (fun fileInfo => fileInfo.status == .dirty)

/-- `upsertFolder`: ensures a folder object exists for the path. -/
def ensureFolder (s : WState) (folderPath : String) : WState :=
  match lookupA s.folders folderPath with
  | some _ => s
  | none => { s with folders := setA s.folders folderPath [] }

/-- In-place mutation of the `FileInfo` object stored under `fileUri`
(JavaScript object mutation through a shared reference). -/
def updateFileAt (s : WState) (fileUri : String) (g : WFile → WFile) : WState :=
  { s with folders := s.folders.map (fun fp =>
      (fp.1, fp.2.map (fun e => if e.1 == fileUri then (e.1, g e.2) else e))) }

def setFolderFiles (s : WState) (folderPath : String) (files : FolderFiles) :
    WState :=
  { s with folders := setA s.folders folderPath files }

/-- `emitIfNew`: an `UPDATED` event is suppressed when the file's version is
not strictly newer than the last version for which `UPDATED` was emitted for
that URI; other events always fire. -/
def emitIfNew (s : WState) (symbol : EventSym) (fileInfo : WFile) : WState :=
  if symbol == .UPDATED then
    match lookupA s.lastVersionUpdateEmitted fileInfo.fileUri with
    | some lastVersion =>
      if fileInfo.version ≤ lastVersion then s
      else
        { s with
          lastVersionUpdateEmitted :=
            setA s.lastVersionUpdateEmitted fileInfo.fileUri fileInfo.version,
          events := (symbol, fileInfo.fileUri, fileInfo.version) :: s.events }
    | none =>
      { s with
        lastVersionUpdateEmitted :=
          setA s.lastVersionUpdateEmitted fileInfo.fileUri fileInfo.version,
        events := (symbol, fileInfo.fileUri, fileInfo.version) :: s.events }
  else
    { s with events := (symbol, fileInfo.fileUri, fileInfo.version) :: s.events }

/-- `getProblemFiles`: problem files in the domain's folder matching its
name. -/
def getProblemFiles (s : WState) (domainInfo : WFile) : List WFile :=
  match lookupA s.folders (folderPathOf domainInfo.fileUri) with
  | some files => folderProblemFilesFor files domainInfo
  | none => []

/-- `getPlanFiles`: plan files in the problem's folder matching its problem
and domain names. -/
def getPlanFiles (s : WState) (problemInfo : WFile) : List WFile :=
  match lookupA s.folders (folderPathOf problemInfo.fileUri) with
  | some files =>
    ((valuesA files).filter WFile.isPlan).filter
      (fun p => lowerCaseEquals p.problemName problemInfo.name &&
        lowerCaseEquals p.domainName problemInfo.domainName)
  | none => []

/-- `getHappeningsFiles`. -/
def getHappeningsFiles (s : WState) (problemInfo : WFile) : List WFile :=
  match lookupA s.folders (folderPathOf problemInfo.fileUri) with
  | some files =>
    ((valuesA files).filter WFile.isHappenings).filter
      (fun p => lowerCaseEquals p.problemName problemInfo.name &&
        lowerCaseEquals p.domainName problemInfo.domainName)
  | none => []

/-- `invalidateDiagnostics`: sets the file's status to `Parsed` (note: not
`Dirty`) and emits `UPDATED` unless stale. -/
def invalidateDiagnostics (s : WState) (fileInfo : WFile) : WState :=
  let s1 := s.updateFileAt fileInfo.fileUri (fun f => { f with status := .parsed })
  s1.emitIfNew .UPDATED { fileInfo with status := .parsed }

/-- `markPlansAsDirty`: invalidates every matching plan file, then every
matching happenings file. -/
def markPlansAsDirty (s : WState) (problemInfo : WFile) : WState :=
  let s1 := (s.getPlanFiles problemInfo).foldl
    (fun st planInfo => st.invalidateDiagnostics planInfo) s
  (s1.getHappeningsFiles problemInfo).foldl
    (fun st happeningsInfo => st.invalidateDiagnostics happeningsInfo) s1

/-- `markProblemsAsDirty`: invalidates every matching problem file and
cascades to its plan and happenings files. -/
def markProblemsAsDirty (s : WState) (domainInfo : WFile) : WState :=
  (s.getProblemFiles domainInfo).foldl
    (fun st problemInfo =>
      (st.invalidateDiagnostics problemInfo).markPlansAsDirty problemInfo) s

/-- `insertFile`: parses, stores (subject to the `git`-scheme guard),
cascades invalidation for domains and problems, and emits `UPDATED` then
`INSERTED`.  Returns the parsed file. -/
def insertFile (pf : ParseFn) (s : WState) (fileUri : String)
    (language : PddlLanguage) (fileVersion : Nat) (fileText : String) :
    WState × WFile :=
  let fileInfo := pf fileUri language fileVersion fileText
  let folderPath := folderPathOf fileUri
  let files := (lookupA s.folders folderPath).getD []
  let s1 := s.setFolderFiles folderPath (folderAdd files fileInfo)
  let s2 :=
    if fileInfo.isDomain then s1.markProblemsAsDirty fileInfo
    else if fileInfo.isProblem then s1.markPlansAsDirty fileInfo
    else s1
  let s3 := s2.emitIfNew .UPDATED fileInfo
  let s4 := s3.emitIfNew .INSERTED fileInfo
  (s4, fileInfo)

/-- `FileInfo.update` (modelled from the spec, `FileInfo.ts` being absent):
an update with a strictly greater version, or a forced update, stores the
new text and version and sets the status back to `Dirty`. -/
def fileUpdate (f : WFile) (fileVersion : Nat) (fileText : String)
    (force : Bool) : WFile × Bool :=
  if fileVersion > f.version || force then
    ({ f with version := fileVersion, text := fileText, status := .dirty }, true)
  else (f, false)

/-- `upsertFile`: updates the stored file in place (scheduling a re-parse,
whose timer is outside the model) or inserts a new one.  Returns the stored
or parsed file. -/
def upsertFile (pf : ParseFn) (s : WState) (fileUri : String)
    (language : PddlLanguage) (fileVersion : Nat) (fileText : String)
    (force : Bool := false) : WState × WFile :=
  let folderPath := folderPathOf fileUri
  let s0 := s.ensureFolder folderPath
  match s0.getFileInfo fileUri with
  | some fileInfo =>
    let fu := fileUpdate fileInfo fileVersion fileText force
    if fu.2 then (s0.updateFileAt fileUri (fun _ => fu.1), fu.1)
    else (s0, fileInfo)
  | none => insertFile pf s0 fileUri language fileVersion fileText

/-- `reParseFile`: removes the stored object, parses the same text afresh,
stores the result and emits `UPDATED`.  No invalidation cascade happens
here.  Returns the freshly parsed file. -/
def reParseFile (pf : ParseFn) (s : WState) (fileInfo : WFile) :
    WState × WFile :=
  let folderPath := folderPathOf fileInfo.fileUri
  let s0 := s.ensureFolder folderPath
  let files := (lookupA s0.folders folderPath).getD []
  let files1 := removeA files fileInfo.fileUri
  let newInfo := pf fileInfo.fileUri fileInfo.language fileInfo.version fileInfo.text
  let s1 := s0.setFolderFiles folderPath (folderAdd files1 newInfo)
  (s1.emitIfNew .UPDATED newInfo, newInfo)

/-- `parseAllDirty`: re-parses the snapshot of all files currently dirty. -/
def parseAllDirty (pf : ParseFn) (s : WState) : WState :=
  (s.getAllDirtyFiles).foldl (fun st f => (reParseFile pf st f).1) s

/-- `upsertAndParseFile`: upsert, then an immediate re-parse when the stored
file is dirty. -/
def upsertAndParseFile (pf : ParseFn) (s : WState) (fileUri : String)
    (language : PddlLanguage) (fileVersion : Nat) (fileText : String) :
    WState × WFile :=
  let r := s.upsertFile pf fileUri language fileVersion fileText false
  if r.2.status == .dirty then r.1.reParseFile pf r.2 else r

/-- `hasExplicitAssociations`: the URI occurs as key or value of either
explicit association map. -/
def hasExplicitAssociations (s : WState) (documentUri : String) : Bool :=
  (lookupA s.problemToDomainMap documentUri).isSome ||
    (valuesA s.problemToDomainMap).contains documentUri ||
    (lookupA s.planToProblemMap documentUri).isSome ||
    (valuesA s.planToProblemMap).contains documentUri

/-- `removeFile`: refuses when an explicit association exists and the caller
did not opt into removing references; otherwise emits `REMOVING` and deletes
the file from its folder. -/
def removeFile (s : WState) (documentUri : String)
    (removeAllReferences : Bool) : WState × Bool :=
  if s.hasExplicitAssociations documentUri && !removeAllReferences then
    (s, false)
  else
    let folderPath := folderPathOf documentUri
    match lookupA s.folders folderPath with
    | some files =>
      match lookupA files documentUri with
      | some documentInfo =>
        let s1 := s.emitIfNew .REMOVING documentInfo
        (s1.setFolderFiles folderPath (removeA files documentUri), true)
      | none => (s, false)
    | none => (s, false)

def associateProblemToDomain (s : WState) (problemUri domainUri : String) :
    WState :=
  { s with problemToDomainMap := setA s.problemToDomainMap problemUri domainUri }

def associatePlanToProblem (s : WState) (planUri problemUri : String) :
    WState :=
  { s with planToProblemMap := setA s.planToProblemMap planUri problemUri }

/-- `getDomainFilesFor`: the explicit association map is checked first;
otherwise the problem's folder is searched by name. -/
def getDomainFilesFor (s : WState) (problemFile : WFile) : List WFile :=
  match lookupA s.problemToDomainMap problemFile.fileUri with
  | some domainFileUri =>
    match s.getFileInfo domainFileUri with
    | some associatedDomain => [associatedDomain]
    | none => []
  | none =>
    match lookupA s.folders (folderPathOf problemFile.fileUri) with
    | some files => folderDomainFilesFor files problemFile
    | none => []

/-- `getDomainFileFor`: the unambiguous variant; `none` unless exactly one
candidate exists. -/
def getDomainFileFor (s : WState) (problemFile : WFile) : Option WFile :=
  let domainFiles := s.getDomainFilesFor problemFile
  if domainFiles.length = 1 then domainFiles.head? else none

/-- `getProblemFileForPlan`: explicit association first, then folder
matching by problem name. -/
def getProblemFileForPlan (s : WState) (planInfo : WFile) : Option WFile :=
  match lookupA s.planToProblemMap planInfo.fileUri with
  | some problemFileUri => s.getFileInfo problemFileUri
  | none =>
    match s.getFolderOf planInfo with
    | some files => getProblemFileWithName files planInfo.problemName
    | none => none

/-- `getProblemFileForHappenings`: folder matching by problem name only
(the explicit plan-to-problem map is not consulted). -/
def getProblemFileForHappenings (s : WState) (happeningsInfo : WFile) :
    Option WFile :=
  match s.getFolderOf happeningsInfo with
  | some files => getProblemFileWithName files happeningsInfo.problemName
  | none => none

end WState

/-- The workspace operations reachable from the public surface, as an
operation algebra over which the temporal claims quantify. -/
inductive WOp where
  | upsert (uri : String) (language : PddlLanguage) (version : Nat)
      (text : String) (force : Bool)
  | upsertAndParse (uri : String) (language : PddlLanguage) (version : Nat)
      (text : String)
  | reparse (uri : String)
  | batchReparse
  | removeOp (uri : String) (removeAllReferences : Bool)
  | invalidate (uri : String)
  | assocProblemToDomain (problemUri domainUri : String)
  | assocPlanToProblem (planUri problemUri : String)

def applyOp (pf : ParseFn) (s : WState) : WOp → WState
  | .upsert uri language version text force =>
    (s.upsertFile pf uri language version text force).1
  | .upsertAndParse uri language version text =>
    (s.upsertAndParseFile pf uri language version text).1
  | .reparse uri =>
    match s.getFileInfo uri with
    | some fileInfo => (s.reParseFile pf fileInfo).1
    | none => s
  | .batchReparse => s.parseAllDirty pf
  | .removeOp uri removeAllReferences => (s.removeFile uri removeAllReferences).1
  | .invalidate uri =>
    match s.getFileInfo uri with
    | some fileInfo => s.invalidateDiagnostics fileInfo
    | none => s
  | .assocProblemToDomain problemUri domainUri =>
    s.associateProblemToDomain problemUri domainUri
  | .assocPlanToProblem planUri problemUri =>
    s.associatePlanToProblem planUri problemUri

def applyOps (pf : ParseFn) (s : WState) (ops : List WOp) : WState :=
  ops.foldl (applyOp pf) s

/-! ## Association-list lemmas -/

theorem beq_false_of_ne {a b : String} (h : a ≠ b) : (a == b) = false := by
  simpa using h

theorem lookupA_setA {α : Type} (m : List (String × α)) (k k' : String) (v : α) :
    lookupA (setA m k v) k' = if k' = k then some v else lookupA m k' := by
  induction m with
  | nil =>
    by_cases h : k' = k
    · simp [setA, lookupA, h]
    · simp [setA, lookupA, h, beq_false_of_ne (fun hc => h hc.symm)]
  | cons e rest ih =>
    by_cases hek : e.1 = k
    · have hb : (e.1 == k) = true := by simp [hek]
      simp only [setA, hb, if_true]
      by_cases h : k' = k
      · simp [lookupA, h]
      · have hek' : e.1 ≠ k' := by
          rw [hek]
          exact fun hc => h hc.symm
        simp [lookupA, h, beq_false_of_ne (fun hc => h hc.symm), hek']
    · have hb : (e.1 == k) = false := beq_false_of_ne hek
      simp only [setA, hb, Bool.false_eq_true, if_false]
      by_cases h2 : e.1 = k'
      · have h : k' ≠ k := fun hc => hek (h2.symm ▸ hc ▸ rfl)
        simp [lookupA, h2, h]
      · simp [lookupA, beq_false_of_ne h2, ih]

theorem lookupA_removeA {α : Type} (m : List (String × α)) (k k' : String) :
    lookupA (removeA m k) k' = if k' = k then none else lookupA m k' := by
  induction m with
  | nil => by_cases h : k' = k <;> simp [removeA, lookupA, h]
  | cons e rest ih =>
    by_cases hek : e.1 = k
    · have hb : (e.1 != k) = false := by simp [bne, hek]
      simp only [removeA, List.filter_cons, hb, Bool.false_eq_true, if_false]
      rw [removeA] at ih
      rw [ih]
      by_cases h : k' = k
      · simp [h]
      · have hek' : e.1 ≠ k' := by
          rw [hek]
          exact fun hc => h hc.symm
        simp [h, lookupA, hek']
    · have hb : (e.1 != k) = true := by simp [bne, beq_false_of_ne hek]
      simp only [removeA, List.filter_cons, hb, if_true]
      rw [removeA] at ih
      by_cases h2 : e.1 = k'
      · have h : k' ≠ k := fun hc => hek (h2.symm ▸ hc ▸ rfl)
        simp [lookupA, h2, h]
      · simp [lookupA, beq_false_of_ne h2, ih]

theorem mem_of_lookupA {α : Type} {m : List (String × α)} {k : String} {v : α}
    (h : lookupA m k = some v) : (k, v) ∈ m := by
  induction m with
  | nil => simp [lookupA] at h
  | cons e rest ih =>
    by_cases hek : e.1 = k
    · simp only [lookupA, hek, beq_self_eq_true, if_pos] at h
      injection h with h
      rw [← h, ← hek]
      exact List.mem_cons_self _ _
    · have : (e.1 == k) = false := by simpa using hek
      simp only [lookupA, this, Bool.false_eq_true, if_false] at h
      exact List.mem_cons_of_mem _ (ih h)

theorem lookupA_eq_some_of_mem {α : Type} {m : List (String × α)} {k : String}
    {v : α} (hmem : (k, v) ∈ m) (hnd : (m.map Prod.fst).Nodup) :
    lookupA m k = some v := by
  induction m with
  | nil => simp at hmem
  | cons e rest ih =>
    simp only [List.map_cons, List.nodup_cons] at hnd
    rcases List.mem_cons.mp hmem with h | h
    · rw [← h]
      simp [lookupA]
    · have hne : e.1 ≠ k := by
        intro hc
        exact hnd.1 (hc ▸ List.mem_map.mpr ⟨(k, v), h, hc ▸ rfl⟩)
      have : (e.1 == k) = false := by simpa using hne
      simp only [lookupA, this, Bool.false_eq_true, if_false]
      exact ih h hnd.2

/-! ## Claim C3 -/

/-- C3: parsing `(define (problem p1) (:domain d1) (:objects a b - loc)
(:init (at 5 (visited a))))` produces a `ProblemInfo` named `p1`, referring
to domain `d1`, whose object-type map assigns `a` and `b` to type `loc`, and
whose initial facts are exactly one `TimedVariableValue` with time 5,
variable name `visited a` and boolean value true. -/
theorem C3_parse_problem_example :
    parseProblem "(define (problem p1) (:domain d1) (:objects a b - loc) (:init (at 5 (visited a))))" =
      Except.ok (some ⟨"p1", "d1", [("loc", ["a", "b"])],
        [⟨5, VariableValue.boolValue "visited a" true⟩], []⟩) := by
  rfl

/-! ## Claim C2 -/

/-- C2 counterexample: on `(define (problem bad) (:domain d1) (:init (at
(foo))))`, `parseInit` indeed does not throw (parsing succeeds), but the
resulting `ProblemInfo` has an empty fact list — it does not contain the
`(at (foo))` fact at time 0 as the claim states, because `parseVariableValue`
on the whole `(at ...)` bracket returns no value when the bracket has a
nested bracket child. -/
theorem C2_counterexample :
    parseProblem "(define (problem bad) (:domain d1) (:init (at (foo))))" =
      Except.ok (some ⟨"bad", "d1", [], [], []⟩) ∧
    (⟨"bad", "d1", [], [], []⟩ : ProblemInfo).inits = [] :=
  ⟨rfl, rfl⟩

/-- C2 amended: for an `:init` bracket headed `(at` whose non-whitespace
non-comment child count is at most one (as in `(at (foo))`, where no numeric
token follows `(at`), `parseInit` does not throw and falls back to parsing
the whole bracket as an untimed fact at time 0 via `parseVariableValue`;
on the concrete input that fallback produces no value, so parsing the file
succeeds with an empty fact list. -/
theorem C2_amended_untimed_fallback :
    (∀ bracket : PddlSyntaxNode,
      bracket.token.tokenText = "(at" →
      ((bracket.getNonWhitespaceChildren).filter
        (fun n => n.token.type != .comment)).length ≤ 1 →
      parseInit bracket =
        (parseVariableValue bracket).map (TimedVariableValue.ofTime 0)) ∧
    parseProblem "(define (problem bad) (:domain d1) (:init (at (foo))))" =
      Except.ok (some ⟨"bad", "d1", [], [], []⟩) := by
  constructor
  · intro bracket h1 h2
    rw [parseInit, h1]
    simp only [beq_self_eq_true, if_true]
    rcases hts : (bracket.getNonWhitespaceChildren).filter
        (fun n => n.token.type != .comment) with _ | ⟨t0, _ | ⟨t1, tl⟩⟩
    · rw [hts]
    · rw [hts]
    · rw [hts] at h2
      simp at h2
  · rfl

/-- C2 amended, witness: the fallback equation of the amended claim holds at
the concrete bracket `(at (foo))` as built by the tree builder. -/
theorem C2_amended_untimed_fallback_witness :
    parseInit (PddlSyntaxNode.mk ⟨.openBracketOperator, "(at"⟩
        [PddlSyntaxNode.mk ⟨.whitespace, " "⟩ [] false,
         PddlSyntaxNode.mk ⟨.openBracket, "("⟩
           [PddlSyntaxNode.mk ⟨.other, "foo"⟩ [] false] true] true) =
      (parseVariableValue (PddlSyntaxNode.mk ⟨.openBracketOperator, "(at"⟩
        [PddlSyntaxNode.mk ⟨.whitespace, " "⟩ [] false,
         PddlSyntaxNode.mk ⟨.openBracket, "("⟩
           [PddlSyntaxNode.mk ⟨.other, "foo"⟩ [] false] true] true)).map
        (TimedVariableValue.ofTime 0) :=
  C2_amended_untimed_fallback.1 _ rfl (by decide)

/-! ## Claim C8 -/

/-- C8: an `:init` bracket headed `(forall`, `(assign`, `(increase` or
`(decrease` is parsed to an explicit unsupported value carrying the bracket's
verbatim source text, and that value appears in the fact list produced by
`parseInitSection` at time 0 rather than being dropped. -/
theorem C8_unsupported_kept_verbatim (initNode b : PddlSyntaxNode)
    (hmem : b ∈ initNode.children)
    (hopen : isOpenBracket b.token = true)
    (hname : b.token.tokenText ∈ ["(forall", "(assign", "(increase", "(decrease"]) :
    parseVariableValue b = some (.unsupported b.getText) ∧
    (⟨0, .unsupported b.getText⟩ : TimedVariableValue) ∈ (parseInitSection initNode).1 := by
  obtain ⟨t, cs, cl⟩ := b
  simp only [PddlSyntaxNode.token] at hname hopen
  simp only [List.mem_cons, List.not_mem_nil, or_false] at hname
  have hvv : parseVariableValue (.mk t cs cl) =
      some (.unsupported (PddlSyntaxNode.mk t cs cl).getText) := by
    rw [parseVariableValue, nodeSize, parseVariableValueF]
    rcases hname with h | h | h | h <;> simp [PddlSyntaxNode.token, h]
  refine ⟨hvv, ?_⟩
  have hne : ((PddlSyntaxNode.mk t cs cl).token.tokenText == "(at") = false := by
    rcases hname with h | h | h | h <;> simp [PddlSyntaxNode.token, h]
  have hsd : isSupplyDemandText (PddlSyntaxNode.mk t cs cl).token.tokenText = false := by
    rcases hname with h | h | h | h <;>
      simp only [PddlSyntaxNode.token, h] <;> decide
  have hinit : parseInit (PddlSyntaxNode.mk t cs cl) =
      some ⟨0, .unsupported (PddlSyntaxNode.mk t cs cl).getText⟩ := by
    simp only [parseInit, hne, Bool.false_eq_true, if_false, hvv, Option.map_some]
    rfl
  rw [parseInitSection]
  simp only
  apply List.mem_filterMap.mpr
  refine ⟨PddlSyntaxNode.mk t cs cl, ?_, hinit⟩
  apply List.mem_filter.mpr
  refine ⟨List.mem_filter.mpr ⟨hmem, hopen⟩, ?_⟩
  simp [hsd]

/-- C8 witness: instantiation at a concrete `:init` node containing
`(assign (f) 3)`. -/
theorem C8_unsupported_kept_verbatim_witness :
    parseVariableValue (PddlSyntaxNode.mk ⟨.openBracketOperator, "(assign"⟩
        [PddlSyntaxNode.mk ⟨.whitespace, " "⟩ [] false,
         PddlSyntaxNode.mk ⟨.openBracket, "("⟩
           [PddlSyntaxNode.mk ⟨.other, "f"⟩ [] false] true,
         PddlSyntaxNode.mk ⟨.whitespace, " "⟩ [] false,
         PddlSyntaxNode.mk ⟨.other, "3"⟩ [] false] true) =
      some (.unsupported "(assign (f) 3)") ∧
    (⟨0, .unsupported "(assign (f) 3)"⟩ : TimedVariableValue) ∈
      (parseInitSection (PddlSyntaxNode.mk ⟨.openBracketOperator, "(:init"⟩
        [PddlSyntaxNode.mk ⟨.whitespace, " "⟩ [] false,
         PddlSyntaxNode.mk ⟨.openBracketOperator, "(assign"⟩
          [PddlSyntaxNode.mk ⟨.whitespace, " "⟩ [] false,
           PddlSyntaxNode.mk ⟨.openBracket, "("⟩
             [PddlSyntaxNode.mk ⟨.other, "f"⟩ [] false] true,
           PddlSyntaxNode.mk ⟨.whitespace, " "⟩ [] false,
           PddlSyntaxNode.mk ⟨.other, "3"⟩ [] false] true] true)).1 := by
  have h := C8_unsupported_kept_verbatim
    (PddlSyntaxNode.mk ⟨.openBracketOperator, "(:init"⟩
      [PddlSyntaxNode.mk ⟨.whitespace, " "⟩ [] false,
       PddlSyntaxNode.mk ⟨.openBracketOperator, "(assign"⟩
        [PddlSyntaxNode.mk ⟨.whitespace, " "⟩ [] false,
         PddlSyntaxNode.mk ⟨.openBracket, "("⟩
           [PddlSyntaxNode.mk ⟨.other, "f"⟩ [] false] true,
         PddlSyntaxNode.mk ⟨.whitespace, " "⟩ [] false,
         PddlSyntaxNode.mk ⟨.other, "3"⟩ [] false] true] true)
    (PddlSyntaxNode.mk ⟨.openBracketOperator, "(assign"⟩
      [PddlSyntaxNode.mk ⟨.whitespace, " "⟩ [] false,
       PddlSyntaxNode.mk ⟨.openBracket, "("⟩
         [PddlSyntaxNode.mk ⟨.other, "f"⟩ [] false] true,
       PddlSyntaxNode.mk ⟨.whitespace, " "⟩ [] false,
       PddlSyntaxNode.mk ⟨.other, "3"⟩ [] false] true)
    (by simp [PddlSyntaxNode.children]) rfl (by simp [PddlSyntaxNode.token])
  have hg : (PddlSyntaxNode.mk (⟨.openBracketOperator, "(assign"⟩ : PddlToken)
      [PddlSyntaxNode.mk ⟨.whitespace, " "⟩ [] false,
       PddlSyntaxNode.mk ⟨.openBracket, "("⟩
         [PddlSyntaxNode.mk ⟨.other, "f"⟩ [] false] true,
       PddlSyntaxNode.mk ⟨.whitespace, " "⟩ [] false,
       PddlSyntaxNode.mk ⟨.other, "3"⟩ [] false] true).getText =
      "(assign (f) 3)" := by rfl
  rw [hg] at h
  exact h

/-! ## Claim C10 -/

/-- C10: the stale-event suppression of `emitIfNew` applies only to the
`UPDATED` symbol: `INSERTED` and `REMOVING` events are always emitted when
reached, whatever the file's version, while an `UPDATED` event at a version
not exceeding the last emitted one is suppressed. -/
theorem C10_only_updated_suppressed (s : WState) (f : WFile) :
    (s.emitIfNew .INSERTED f).events =
      (.INSERTED, f.fileUri, f.version) :: s.events ∧
    (s.emitIfNew .REMOVING f).events =
      (.REMOVING, f.fileUri, f.version) :: s.events ∧
    (WState.emitIfNew
        { s with lastVersionUpdateEmitted := [(f.fileUri, f.version)] }
        .UPDATED f).events = s.events := by
  refine ⟨?_, ?_, ?_⟩
  · simp [WState.emitIfNew]
  · simp [WState.emitIfNew]
  · simp [WState.emitIfNew, lookupA]

/-! ## Claim C7 -/

/-- C7: removing a file whose URI takes part in an explicit association,
without opting into reference removal, returns false and leaves the whole
workspace state unchanged. -/
theorem C7_remove_with_association_refused (s : WState) (documentUri : String)
    (h : s.hasExplicitAssociations documentUri = true) :
    s.removeFile documentUri false = (s, false) := by
  simp [WState.removeFile, h]

def c7State : WState :=
  { folders := [("/dir", [])],
    problemToDomainMap := [("file:///dir/problem.pddl", "file:///dir/domain.pddl")],
    planToProblemMap := [],
    lastVersionUpdateEmitted := [],
    events := [] }

/-- C7 witness: a state whose problem-to-domain map names the URI. -/
theorem C7_remove_with_association_refused_witness :
    c7State.hasExplicitAssociations "file:///dir/problem.pddl" = true ∧
    c7State.removeFile "file:///dir/problem.pddl" false = (c7State, false) :=
  ⟨by decide, C7_remove_with_association_refused _ _ (by decide)⟩

/-! ## Claim C6 -/

/-- C6: for a problem file with no explicit domain association,
`getDomainFilesFor` returns exactly the folder candidates, and
`getDomainFileFor` returns a domain precisely when there is exactly one
candidate; with zero or several candidates it returns none. -/
theorem C6_single_candidate_policy (s : WState) (problemFile : WFile)
    (h : lookupA s.problemToDomainMap problemFile.fileUri = none) :
    s.getDomainFilesFor problemFile =
      (match lookupA s.folders (folderPathOf problemFile.fileUri) with
        | some files => folderDomainFilesFor files problemFile
        | none => []) ∧
    ((∃ d, s.getDomainFileFor problemFile = some d) ↔
      (s.getDomainFilesFor problemFile).length = 1) ∧
    ((s.getDomainFilesFor problemFile).length ≠ 1 →
      s.getDomainFileFor problemFile = none) := by
  refine ⟨?_, ?_, ?_⟩
  · rw [WState.getDomainFilesFor, h]
  · rw [WState.getDomainFileFor]
    by_cases hl : (s.getDomainFilesFor problemFile).length = 1
    · obtain ⟨a, ha⟩ := List.length_eq_one.mp hl
      simp [hl, ha]
    · simp [hl]
  · intro hl
    rw [WState.getDomainFileFor]
    simp [hl]

def c6Domain : WFile :=
  ⟨"file:///dir/domain.pddl", .PDDL, 1, .parsed, "", .domain, "d1", "", ""⟩

def c6Problem : WFile :=
  ⟨"file:///dir/problem.pddl", .PDDL, 1, .parsed, "", .problem, "p1", "d1", ""⟩

def c6State : WState :=
  ⟨[("/dir", [("file:///dir/domain.pddl", c6Domain)])], [], [], [], []⟩

/-- C6 witness: a folder holding exactly one matching domain, no explicit
association. -/
theorem C6_single_candidate_policy_witness :
    lookupA c6State.problemToDomainMap c6Problem.fileUri = none ∧
    (c6State.getDomainFilesFor c6Problem =
      (match lookupA c6State.folders (folderPathOf c6Problem.fileUri) with
        | some files => folderDomainFilesFor files c6Problem
        | none => []) ∧
    ((∃ d, c6State.getDomainFileFor c6Problem = some d) ↔
      (c6State.getDomainFilesFor c6Problem).length = 1) ∧
    ((c6State.getDomainFilesFor c6Problem).length ≠ 1 →
      c6State.getDomainFileFor c6Problem = none)) :=
  ⟨rfl, C6_single_candidate_policy _ _ rfl⟩

/-! ## Claim C5 -/

def c5P1 : WFile :=
  ⟨"file:///other/p1.pddl", .PDDL, 1, .parsed, "", .problem, "p1", "dom", ""⟩

def c5P2 : WFile :=
  ⟨"file:///dir/p2.pddl", .PDDL, 1, .parsed, "", .problem, "p2", "dom", ""⟩

def c5Hap : WFile :=
  ⟨"file:///dir/trace.happenings", .HAPPENINGS, 1, .parsed, "", .happenings,
    "", "dom", "p2"⟩

def c5State : WState :=
  ⟨[("/other", [("file:///other/p1.pddl", c5P1)]),
    ("/dir", [("file:///dir/p2.pddl", c5P2),
              ("file:///dir/trace.happenings", c5Hap)])],
   [], [("file:///dir/trace.happenings", "file:///other/p1.pddl")], [], []⟩

/-- C5 counterexample: a happenings file with an explicit plan-to-problem
association for its URI.  The claim says the associated problem (`c5P1`,
stored in the workspace) is returned first, but
`getProblemFileForHappenings` ignores the explicit map and returns the
folder name-match `c5P2` instead. -/
theorem C5_counterexample :
    lookupA c5State.planToProblemMap c5Hap.fileUri = some c5P1.fileUri ∧
    c5State.getFileInfo c5P1.fileUri = some c5P1 ∧
    c5State.getProblemFileForHappenings c5Hap = some c5P2 ∧
    c5P2 ≠ c5P1 := by
  refine ⟨rfl, rfl, rfl, by decide⟩

/-- C5 amended: for every plan file the problem lookup is two-tier — the
explicit plan-to-problem association wins when present (its target fetched
directly, with no fallback), and only otherwise does case-insensitive
problem-name matching in the plan's folder apply.  For happenings files the
lookup uses only folder name-matching: it is independent of the explicit
plan-to-problem map. -/
theorem C5_amended_two_tier_for_plans_only (s : WState) (planInfo happeningsInfo : WFile) :
    (∀ problemFileUri,
      lookupA s.planToProblemMap planInfo.fileUri = some problemFileUri →
      s.getProblemFileForPlan planInfo = s.getFileInfo problemFileUri) ∧
    (lookupA s.planToProblemMap planInfo.fileUri = none →
      s.getProblemFileForPlan planInfo =
        (match s.getFolderOf planInfo with
          | some files => getProblemFileWithName files planInfo.problemName
          | none => none)) ∧
    s.getProblemFileForHappenings happeningsInfo =
      WState.getProblemFileForHappenings { s with planToProblemMap := [] }
        happeningsInfo := by
  refine ⟨?_, ?_, ?_⟩
  · intro problemFileUri h
    rw [WState.getProblemFileForPlan, h]
  · intro h
    rw [WState.getProblemFileForPlan, h]
  · rfl

/-- C5 amended, witness: instantiation at the concrete state of the
counterexample. -/
theorem C5_amended_two_tier_for_plans_only_witness :
    lookupA c5State.planToProblemMap c5Hap.fileUri = some "file:///other/p1.pddl" ∧
    c5State.getProblemFileForPlan c5Hap = c5State.getFileInfo "file:///other/p1.pddl" ∧
    c5State.getProblemFileForHappenings c5Hap =
      WState.getProblemFileForHappenings { c5State with planToProblemMap := [] } c5Hap :=
  ⟨rfl,
   (C5_amended_two_tier_for_plans_only c5State c5Hap c5Hap).1 _ rfl,
   (C5_amended_two_tier_for_plans_only c5State c5Hap c5Hap).2.2⟩

/-! ## Claim C4: event deduplication -/

/-- The (uri, version) pairs of all `UPDATED` events in a log. -/
def updatedPairsL (ev : List (EventSym × String × Nat)) : List (String × Nat) :=
  ev.filterMap (fun e => if e.1 == .UPDATED then some e.2 else none)

/-- The (uri, version) pairs of all `UPDATED` events in the log. -/
def updatedPairs (s : WState) : List (String × Nat) :=
  updatedPairsL s.events

theorem updatedPairsL_cons_updated (u : String) (v : Nat)
    (ev : List (EventSym × String × Nat)) :
    updatedPairsL ((EventSym.UPDATED, u, v) :: ev) = (u, v) :: updatedPairsL ev := by
  simp [updatedPairsL, List.filterMap_cons]

theorem updatedPairsL_cons_other (symbol : EventSym) (u : String) (v : Nat)
    (ev : List (EventSym × String × Nat)) (h : symbol ≠ .UPDATED) :
    updatedPairsL ((symbol, u, v) :: ev) = updatedPairsL ev := by
  simp [updatedPairsL, List.filterMap_cons, h]

/-- Emitter invariant: every `UPDATED` pair in the log is dominated by the
recorded last-emitted version of its URI, and no pair repeats. -/
def EmInv (s : WState) : Prop :=
  (∀ p ∈ updatedPairs s,
    ∃ L, lookupA s.lastVersionUpdateEmitted p.1 = some L ∧ p.2 ≤ L) ∧
  (updatedPairs s).Nodup

theorem emInv_of_emitter_eq {s s' : WState}
    (hev : s'.events = s.events)
    (hlast : s'.lastVersionUpdateEmitted = s.lastVersionUpdateEmitted)
    (h : EmInv s) : EmInv s' := by
  unfold EmInv updatedPairs at *
  rw [hev, hlast]
  exact h

theorem foldl_preserve {α : Type} {P : WState → Prop}
    {step : WState → α → WState}
    (hstep : ∀ st a, P st → P (step st a)) :
    ∀ (l : List α) (s : WState), P s → P (l.foldl step s) := by
  intro l
  induction l with
  | nil => intro s h; exact h
  | cons a tl ih => intro s h; exact ih _ (hstep s a h)

theorem emitIfNew_not_updated (s : WState) (symbol : EventSym) (f : WFile)
    (h : symbol ≠ .UPDATED) :
    s.emitIfNew symbol f =
      { s with events := (symbol, f.fileUri, f.version) :: s.events } := by
  have hb : (symbol == EventSym.UPDATED) = false := by simpa using h
  simp [WState.emitIfNew, hb]

theorem emInv_emit_updated_case (s : WState) (f : WFile)
    (h1 : ∀ p ∈ updatedPairs s,
      ∃ L, lookupA s.lastVersionUpdateEmitted p.1 = some L ∧ p.2 ≤ L)
    (h2 : (updatedPairs s).Nodup)
    (hdom : ∀ L, lookupA s.lastVersionUpdateEmitted f.fileUri = some L →
      ¬ f.version ≤ L) :
    EmInv ⟨s.folders, s.problemToDomainMap, s.planToProblemMap,
      setA s.lastVersionUpdateEmitted f.fileUri f.version,
      (EventSym.UPDATED, f.fileUri, f.version) :: s.events⟩ := by
  constructor
  · intro p hp
    have hp' : p ∈ updatedPairsL
        ((EventSym.UPDATED, f.fileUri, f.version) :: s.events) := hp
    rw [updatedPairsL_cons_updated] at hp'
    show ∃ L, lookupA (setA s.lastVersionUpdateEmitted f.fileUri f.version) p.1 =
      some L ∧ p.2 ≤ L
    rcases List.mem_cons.mp hp' with hpf | hp'
    · subst hpf
      refine ⟨f.version, ?_, le_refl _⟩
      simp [lookupA_setA]
    · obtain ⟨L', hL', hle'⟩ := h1 p hp'
      by_cases hpk : p.1 = f.fileUri
      · rw [hpk] at hL'
        have hlt := hdom L' hL'
        refine ⟨f.version, ?_, ?_⟩
        · rw [lookupA_setA]
          simp [hpk]
        · omega
      · refine ⟨L', ?_, hle'⟩
        rw [lookupA_setA]
        simp only [hpk, if_false]
        exact hL'
  · show (updatedPairsL
      ((EventSym.UPDATED, f.fileUri, f.version) :: s.events)).Nodup
    rw [updatedPairsL_cons_updated]
    refine List.nodup_cons.mpr ⟨?_, h2⟩
    intro hmem
    obtain ⟨L', hL', hle'⟩ := h1 _ hmem
    simp only at hL'
    exact hdom L' hL' hle'

theorem emitIfNew_updated_emit_eq (s : WState) (f : WFile)
    (h : ∀ L, lookupA s.lastVersionUpdateEmitted f.fileUri = some L →
      ¬ f.version ≤ L) :
    s.emitIfNew .UPDATED f =
      ⟨s.folders, s.problemToDomainMap, s.planToProblemMap,
       setA s.lastVersionUpdateEmitted f.fileUri f.version,
       (.UPDATED, f.fileUri, f.version) :: s.events⟩ := by
  rw [WState.emitIfNew]
  simp only [beq_self_eq_true, if_true]
  cases hl : lookupA s.lastVersionUpdateEmitted f.fileUri with
  | some L => exact if_neg (h L hl)
  | none => rfl

theorem emitIfNew_updated_suppressed_eq (s : WState) (f : WFile) (L : Nat)
    (hl : lookupA s.lastVersionUpdateEmitted f.fileUri = some L)
    (hle : f.version ≤ L) :
    s.emitIfNew .UPDATED f = s := by
  rw [WState.emitIfNew]
  simp only [beq_self_eq_true, if_true]
  rw [hl]
  exact if_pos hle

theorem emInv_emitIfNew (s : WState) (symbol : EventSym) (f : WFile)
    (h : EmInv s) : EmInv (s.emitIfNew symbol f) := by
  obtain ⟨h1, h2⟩ := h
  by_cases hsym : symbol = .UPDATED
  case neg =>
    rw [emitIfNew_not_updated s symbol f hsym]
    constructor
    · intro p hp
      have hp' : p ∈ updatedPairsL
          ((symbol, f.fileUri, f.version) :: s.events) := hp
      rw [updatedPairsL_cons_other _ _ _ _ hsym] at hp'
      exact h1 p hp'
    · show (updatedPairsL ((symbol, f.fileUri, f.version) :: s.events)).Nodup
      rw [updatedPairsL_cons_other _ _ _ _ hsym]
      exact h2
  case pos =>
    subst hsym
    rw [WState.emitIfNew]
    simp only [beq_self_eq_true, if_true]
    cases hl : lookupA s.lastVersionUpdateEmitted f.fileUri with
    | some L =>
      by_cases hle : f.version ≤ L
      · simp only [hle, if_true]
        exact ⟨h1, h2⟩
      · simp only [hle, if_false]
        exact emInv_emit_updated_case s f h1 h2
          (fun L' hL' => by
            rw [hl] at hL'
            injection hL' with hLL
            subst hLL
            exact hle)
    | none =>
      simp only
      exact emInv_emit_updated_case s f h1 h2
        (fun L' hL' => by
          rw [hl] at hL'
          exact absurd hL' (by simp))

theorem emInv_updateFileAt (s : WState) (u : String) (g : WFile → WFile)
    (h : EmInv s) : EmInv (s.updateFileAt u g) :=
  emInv_of_emitter_eq rfl rfl h

theorem emInv_setFolderFiles (s : WState) (fp : String) (files : FolderFiles)
    (h : EmInv s) : EmInv (s.setFolderFiles fp files) :=
  emInv_of_emitter_eq rfl rfl h

theorem emInv_ensureFolder (s : WState) (fp : String)
    (h : EmInv s) : EmInv (s.ensureFolder fp) := by
  rw [WState.ensureFolder]
  cases lookupA s.folders fp
  · exact emInv_of_emitter_eq rfl rfl h
  · exact h

theorem emInv_invalidateDiagnostics (s : WState) (f : WFile)
    (h : EmInv s) : EmInv (s.invalidateDiagnostics f) :=
  emInv_emitIfNew _ _ _ (emInv_updateFileAt _ _ _ h)

theorem emInv_markPlansAsDirty (s : WState) (p : WFile)
    (h : EmInv s) : EmInv (s.markPlansAsDirty p) := by
  rw [WState.markPlansAsDirty]
  exact foldl_preserve (fun st a ha => emInv_invalidateDiagnostics st a ha) _ _
    (foldl_preserve (fun st a ha => emInv_invalidateDiagnostics st a ha) _ _ h)

theorem emInv_markProblemsAsDirty (s : WState) (d : WFile)
    (h : EmInv s) : EmInv (s.markProblemsAsDirty d) := by
  rw [WState.markProblemsAsDirty]
  exact foldl_preserve
    (fun st a ha => emInv_markPlansAsDirty _ _
      (emInv_invalidateDiagnostics st a ha)) _ _ h

theorem emInv_insertFile (pf : ParseFn) (s : WState) (uri : String)
    (lg : PddlLanguage) (v : Nat) (txt : String)
    (h : EmInv s) : EmInv (WState.insertFile pf s uri lg v txt).1 := by
  rw [WState.insertFile]
  simp only
  apply emInv_emitIfNew
  apply emInv_emitIfNew
  by_cases h1 : (pf uri lg v txt).isDomain
  · simp only [h1, if_true]
    exact emInv_markProblemsAsDirty _ _ (emInv_setFolderFiles _ _ _ h)
  · simp only [h1, Bool.false_eq_true, if_false]
    by_cases h2 : (pf uri lg v txt).isProblem
    · simp only [h2, if_true]
      exact emInv_markPlansAsDirty _ _ (emInv_setFolderFiles _ _ _ h)
    · simp only [h2, Bool.false_eq_true, if_false]
      exact emInv_setFolderFiles _ _ _ h

theorem emInv_upsertFile (pf : ParseFn) (s : WState) (uri : String)
    (lg : PddlLanguage) (v : Nat) (txt : String) (force : Bool)
    (h : EmInv s) : EmInv (s.upsertFile pf uri lg v txt force).1 := by
  rw [WState.upsertFile]
  cases (s.ensureFolder (folderPathOf uri)).getFileInfo uri with
  | some fi =>
    simp only
    by_cases hu : (WState.fileUpdate fi v txt force).2
    · simp only [hu, if_true]
      exact emInv_updateFileAt _ _ _ (emInv_ensureFolder _ _ h)
    · simp only [hu, Bool.false_eq_true, if_false]
      exact emInv_ensureFolder _ _ h
  | none =>
    simp only
    exact emInv_insertFile _ _ _ _ _ _ (emInv_ensureFolder _ _ h)

theorem emInv_reParseFile (pf : ParseFn) (s : WState) (f : WFile)
    (h : EmInv s) : EmInv (s.reParseFile pf f).1 := by
  rw [WState.reParseFile]
  exact emInv_emitIfNew _ _ _
    (emInv_setFolderFiles _ _ _ (emInv_ensureFolder _ _ h))

theorem emInv_parseAllDirty (pf : ParseFn) (s : WState)
    (h : EmInv s) : EmInv (s.parseAllDirty pf) := by
  rw [WState.parseAllDirty]
  exact foldl_preserve (fun st a ha => emInv_reParseFile pf st a ha) _ _ h

theorem emInv_upsertAndParseFile (pf : ParseFn) (s : WState) (uri : String)
    (lg : PddlLanguage) (v : Nat) (txt : String)
    (h : EmInv s) : EmInv (s.upsertAndParseFile pf uri lg v txt).1 := by
  rw [WState.upsertAndParseFile]
  by_cases hs : (s.upsertFile pf uri lg v txt false).2.status == .dirty
  · simp only [hs, if_true]
    exact emInv_reParseFile _ _ _ (emInv_upsertFile _ _ _ _ _ _ _ h)
  · simp only [hs, Bool.false_eq_true, if_false]
    exact emInv_upsertFile _ _ _ _ _ _ _ h

theorem emInv_removeFile (s : WState) (uri : String) (rar : Bool)
    (h : EmInv s) : EmInv (s.removeFile uri rar).1 := by
  rw [WState.removeFile]
  by_cases hc : s.hasExplicitAssociations uri && !rar
  · simp only [hc, if_true]
    exact h
  · simp only [hc, Bool.false_eq_true, if_false]
    cases lookupA s.folders (folderPathOf uri) with
    | some files =>
      simp only
      cases lookupA files uri with
      | some fi => exact emInv_setFolderFiles _ _ _ (emInv_emitIfNew _ _ _ h)
      | none => exact h
    | none => exact h

theorem emInv_applyOp (pf : ParseFn) (s : WState) (op : WOp)
    (h : EmInv s) : EmInv (applyOp pf s op) := by
  cases op with
  | upsert uri lg v txt force => exact emInv_upsertFile pf s uri lg v txt force h
  | upsertAndParse uri lg v txt => exact emInv_upsertAndParseFile pf s uri lg v txt h
  | reparse uri =>
    rw [applyOp]
    cases s.getFileInfo uri with
    | some fi => exact emInv_reParseFile pf s fi h
    | none => exact h
  | batchReparse => exact emInv_parseAllDirty pf s h
  | removeOp uri rar => exact emInv_removeFile s uri rar h
  | invalidate uri =>
    rw [applyOp]
    cases s.getFileInfo uri with
    | some fi => exact emInv_invalidateDiagnostics s fi h
    | none => exact h
  | assocProblemToDomain a b => exact emInv_of_emitter_eq rfl rfl h
  | assocPlanToProblem a b => exact emInv_of_emitter_eq rfl rfl h

theorem emInv_emptyState : EmInv emptyState := by
  constructor
  · intro p hp
    simp [updatedPairs, updatedPairsL, emptyState] at hp
  · simp [updatedPairs, updatedPairsL, emptyState]

theorem emInv_applyOps (pf : ParseFn) (ops : List WOp) :
    EmInv (applyOps pf emptyState ops) := by
  rw [applyOps]
  exact foldl_preserve (fun st a ha => emInv_applyOp pf st a ha) _ _
    emInv_emptyState

def c4pf : ParseFn :=
  fun uri lg v _ => ⟨uri, lg, v, .parsed, "", .problem, "p", "d", ""⟩

def c4File (v : Nat) : WFile :=
  ⟨"file:///dir/f.pddl", .PDDL, v, .parsed, "", .problem, "p", "d", ""⟩

/-- C4 counterexample: after `UPDATED` was emitted at version 5 for a URI,
an `UPDATED` attempt at version 3 is suppressed, and — contrary to the
claim — the following attempt at version 4 (that is, N+1 after N = 3) is
also suppressed rather than succeeding: the log still holds only the
version-5 event. -/
theorem C4_counterexample :
    (((emptyState.emitIfNew .UPDATED (c4File 5)).emitIfNew .UPDATED
        (c4File 3)).emitIfNew .UPDATED (c4File 4)).events =
      [(.UPDATED, "file:///dir/f.pddl", 5)] ∧
    (EventSym.UPDATED, "file:///dir/f.pddl", 4) ∉
      (((emptyState.emitIfNew .UPDATED (c4File 5)).emitIfNew .UPDATED
        (c4File 3)).emitIfNew .UPDATED (c4File 4)).events := by
  refine ⟨by decide, by decide⟩

/-- C4 amended: over every sequence of workspace operations from the empty
workspace, `UPDATED` is never emitted twice for the same (fileUri, version)
pair; and emitting `UPDATED` at version N+1 right after the attempt at
version N succeeds provided no `UPDATED` with a version above N had been
emitted for that URI before — in particular when version N's own `UPDATED`
was suppressed as an exact duplicate.  (When a strictly larger version was
already emitted, the N+1 attempt is itself stale and suppressed, which is
what the counterexample exhibits.) -/
theorem C4_amended_no_duplicate_updated :
    (∀ (pf : ParseFn) (ops : List WOp),
      (updatedPairs (applyOps pf emptyState ops)).Nodup) ∧
    (∀ (s : WState) (f g : WFile),
      g.fileUri = f.fileUri →
      g.version = f.version + 1 →
      (∀ L, lookupA s.lastVersionUpdateEmitted f.fileUri = some L →
        L ≤ f.version) →
      ((s.emitIfNew .UPDATED f).emitIfNew .UPDATED g).events =
        (.UPDATED, g.fileUri, g.version) :: (s.emitIfNew .UPDATED f).events) := by
  constructor
  · intro pf ops
    exact (emInv_applyOps pf ops).2
  · intro s f g hu hv hlast
    cases hl : lookupA s.lastVersionUpdateEmitted f.fileUri with
    | some L =>
      have hL := hlast L hl
      by_cases hle : f.version ≤ L
      · rw [emitIfNew_updated_suppressed_eq s f L hl hle]
        have hLf : L = f.version := le_antisymm hL hle
        subst hLf
        rw [emitIfNew_updated_emit_eq s g (fun L' hL' => by
          rw [hu, hl] at hL'
          injection hL' with h'
          omega)]
      · rw [emitIfNew_updated_emit_eq s f (fun L' hL' => by
          rw [hl] at hL'
          injection hL' with h'
          subst h'
          exact hle)]
        rw [emitIfNew_updated_emit_eq _ g (fun L' hL' => by
          have hL'' : lookupA (setA s.lastVersionUpdateEmitted f.fileUri
              f.version) g.fileUri = some L' := hL'
          rw [hu, lookupA_setA] at hL''
          simp only [if_pos rfl] at hL''
          injection hL'' with h'
          omega)]
    | none =>
      rw [emitIfNew_updated_emit_eq s f (fun L' hL' => by
        rw [hl] at hL'
        cases hL')]
      rw [emitIfNew_updated_emit_eq _ g (fun L' hL' => by
        have hL'' : lookupA (setA s.lastVersionUpdateEmitted f.fileUri
            f.version) g.fileUri = some L' := hL'
        rw [hu, lookupA_setA] at hL''
        simp only [if_pos rfl] at hL''
        injection hL'' with h'
        omega)]

/-- C4 amended, witness: a concrete run of the operations (insert at
version 5, then the monotone step from 5 to 6) and a concrete state for the
succeeds-at-N+1 clause. -/
theorem C4_amended_no_duplicate_updated_witness :
    (updatedPairs (applyOps c4pf emptyState
      [.upsert "file:///dir/f.pddl" .PDDL 5 "" false,
       .upsert "file:///dir/f.pddl" .PDDL 3 "" true,
       .batchReparse])).Nodup ∧
    ((({ emptyState with
        lastVersionUpdateEmitted := [("file:///dir/f.pddl", 5)] } :
          WState).emitIfNew .UPDATED (c4File 5)).emitIfNew .UPDATED
        (c4File 6)).events =
      (.UPDATED, "file:///dir/f.pddl", 6) ::
        (({ emptyState with
          lastVersionUpdateEmitted := [("file:///dir/f.pddl", 5)] } :
            WState).emitIfNew .UPDATED (c4File 5)).events :=
  ⟨C4_amended_no_duplicate_updated.1 c4pf _,
   C4_amended_no_duplicate_updated.2 _ (c4File 5) (c4File 6) rfl rfl
     (fun L hL => by
       have h5 : lookupA [("file:///dir/f.pddl", (5 : Nat))]
           "file:///dir/f.pddl" = some L := hL
       have : (5 : Nat) = L := by simpa [lookupA] using h5
       show L ≤ 5
       omega)⟩

theorem mem_setA {α : Type} {m : List (String × α)} {k : String} {v : α}
    {x : String × α} (h : x ∈ setA m k v) : x ∈ m ∨ x = (k, v) := by
  induction m with
  | nil => simpa [setA] using h
  | cons e rest ih =>
    simp only [setA] at h
    by_cases hek : e.1 == k
    · rw [if_pos hek] at h
      rcases List.mem_cons.mp h with h | h
      · exact Or.inr h
      · exact Or.inl (List.mem_cons_of_mem _ h)
    · rw [if_neg hek] at h
      rcases List.mem_cons.mp h with h | h
      · exact Or.inl (List.mem_cons.mpr (Or.inl h))
      · rcases ih h with h | h
        · exact Or.inl (List.mem_cons_of_mem _ h)
        · exact Or.inr h

/-! ## Claim C9: git-scheme files are never stored -/

theorem emitIfNew_folders (s : WState) (symbol : EventSym) (f : WFile) :
    (s.emitIfNew symbol f).folders = s.folders := by
  rw [WState.emitIfNew]
  split
  · split
    · split <;> rfl
    · rfl
  · rfl

/-- Folder invariant: every stored entry is keyed by its own file URI, and
that URI's scheme is never `git`. -/
def GitInv (s : WState) : Prop :=
  ∀ fe ∈ s.folders, ∀ e ∈ fe.2,
    uriScheme e.2.fileUri ≠ "git" ∧ e.1 = e.2.fileUri

theorem gitInv_of_folders_eq {s s' : WState} (h : s'.folders = s.folders)
    (hg : GitInv s) : GitInv s' := by
  unfold GitInv at *
  rw [h]
  exact hg

/-- An entry of `folderAdd files f` is an old entry or the guarded new
entry. -/
theorem mem_folderAdd {files : FolderFiles} {f : WFile} {e : String × WFile}
    (h : e ∈ folderAdd files f) :
    e ∈ files ∨ (e = (f.fileUri, f) ∧ uriScheme f.fileUri ≠ "git") := by
  rw [folderAdd] at h
  by_cases hg : uriScheme f.fileUri != "git"
  · rw [if_pos hg] at h
    rcases mem_setA h with h | h
    · exact Or.inl h
    · refine Or.inr ⟨h, ?_⟩
      simpa using hg
  · rw [if_neg hg] at h
    exact Or.inl h

theorem gitInv_setFolderFiles (s : WState) (fp : String) (files : FolderFiles)
    (hg : GitInv s)
    (hf : ∀ e ∈ files, uriScheme e.2.fileUri ≠ "git" ∧ e.1 = e.2.fileUri) :
    GitInv (s.setFolderFiles fp files) := by
  intro fe hfe e he
  rcases mem_setA hfe with hfe | hfe
  · exact hg fe hfe e he
  · subst hfe
    exact hf e he

theorem gitInv_lookup (s : WState) (fp : String) (files : FolderFiles)
    (hg : GitInv s) (hl : lookupA s.folders fp = some files) :
    ∀ e ∈ files, uriScheme e.2.fileUri ≠ "git" ∧ e.1 = e.2.fileUri :=
  hg (fp, files) (mem_of_lookupA hl)

theorem gitInv_getFileInfo (s : WState) (uri : String) (fi : WFile)
    (hg : GitInv s) (h : s.getFileInfo uri = some fi) :
    uriScheme fi.fileUri ≠ "git" ∧ uri = fi.fileUri := by
  rw [WState.getFileInfo] at h
  cases hl : lookupA s.folders (folderPathOf uri) with
  | some files =>
    rw [hl] at h
    exact gitInv_lookup s _ files hg hl (uri, fi) (mem_of_lookupA h)
  | none =>
    rw [hl] at h
    cases h

theorem gitInv_ensureFolder (s : WState) (fp : String)
    (hg : GitInv s) : GitInv (s.ensureFolder fp) := by
  rw [WState.ensureFolder]
  cases lookupA s.folders fp
  · exact gitInv_setFolderFiles s fp [] hg (by intro e he; cases he)
  · exact hg

theorem gitInv_updateFileAt (s : WState) (uri : String) (g : WFile → WFile)
    (hg : GitInv s) (hgf : ∀ w, (g w).fileUri = w.fileUri) :
    GitInv (s.updateFileAt uri g) := by
  intro fe hfe e he
  rw [WState.updateFileAt] at hfe
  simp only [List.mem_map] at hfe
  obtain ⟨fe0, hfe0, hfeq⟩ := hfe
  subst hfeq
  simp only [List.mem_map] at he
  obtain ⟨e0, he0, heq⟩ := he
  obtain ⟨hs0, hk0⟩ := hg fe0 hfe0 e0 he0
  by_cases hu : e0.1 == uri
  · rw [if_pos hu] at heq
    subst heq
    simp only [hgf]
    exact ⟨hs0, hk0⟩
  · rw [if_neg hu] at heq
    subst heq
    exact ⟨hs0, hk0⟩

theorem gitInv_updateFileAt_const (s : WState) (uri : String) (v0 : WFile)
    (hg : GitInv s) (hv : v0.fileUri = uri) :
    GitInv (s.updateFileAt uri (fun _ => v0)) := by
  intro fe hfe e he
  rw [WState.updateFileAt] at hfe
  simp only [List.mem_map] at hfe
  obtain ⟨fe0, hfe0, hfeq⟩ := hfe
  subst hfeq
  simp only [List.mem_map] at he
  obtain ⟨e0, he0, heq⟩ := he
  obtain ⟨hs0, hk0⟩ := hg fe0 hfe0 e0 he0
  by_cases hu : e0.1 == uri
  · rw [if_pos hu] at heq
    subst heq
    have he01 : e0.1 = uri := by simpa using hu
    constructor
    · simpa [hv, ← he01, ← hk0] using hs0
    · simp [hv, he01]
  · rw [if_neg hu] at heq
    subst heq
    exact ⟨hs0, hk0⟩

theorem gitInv_emitIfNew (s : WState) (symbol : EventSym) (f : WFile)
    (hg : GitInv s) : GitInv (s.emitIfNew symbol f) :=
  gitInv_of_folders_eq (emitIfNew_folders s symbol f) hg

theorem gitInv_invalidateDiagnostics (s : WState) (f : WFile)
    (hg : GitInv s) : GitInv (s.invalidateDiagnostics f) :=
  gitInv_emitIfNew _ _ _
    (gitInv_updateFileAt _ _ _ hg (fun _ => rfl))

theorem gitInv_markPlansAsDirty (s : WState) (p : WFile)
    (hg : GitInv s) : GitInv (s.markPlansAsDirty p) := by
  rw [WState.markPlansAsDirty]
  exact foldl_preserve (fun st a ha => gitInv_invalidateDiagnostics st a ha) _ _
    (foldl_preserve (fun st a ha => gitInv_invalidateDiagnostics st a ha) _ _ hg)

theorem gitInv_markProblemsAsDirty (s : WState) (d : WFile)
    (hg : GitInv s) : GitInv (s.markProblemsAsDirty d) := by
  rw [WState.markProblemsAsDirty]
  exact foldl_preserve
    (fun st a ha => gitInv_markPlansAsDirty _ _
      (gitInv_invalidateDiagnostics st a ha)) _ _ hg

theorem gitInv_addParsed (s : WState) (fp : String) (fi : WFile)
    (hg : GitInv s) :
    GitInv (s.setFolderFiles fp
      (folderAdd ((lookupA s.folders fp).getD []) fi)) := by
  apply gitInv_setFolderFiles s fp _ hg
  intro e he
  rcases mem_folderAdd he with he | ⟨heq, hgit⟩
  · cases hl : lookupA s.folders fp with
    | some files =>
      rw [hl] at he
      exact gitInv_lookup s fp files hg hl e he
    | none =>
      rw [hl] at he
      cases he
  · subst heq
    exact ⟨hgit, rfl⟩

theorem gitInv_insertFile (pf : ParseFn) (s : WState) (uri : String)
    (lg : PddlLanguage) (v : Nat) (txt : String)
    (hg : GitInv s) : GitInv (WState.insertFile pf s uri lg v txt).1 := by
  rw [WState.insertFile]
  simp only
  apply gitInv_emitIfNew
  apply gitInv_emitIfNew
  by_cases h1 : (pf uri lg v txt).isDomain
  · simp only [h1, if_true]
    exact gitInv_markProblemsAsDirty _ _ (gitInv_addParsed _ _ _ hg)
  · simp only [h1, Bool.false_eq_true, if_false]
    by_cases h2 : (pf uri lg v txt).isProblem
    · simp only [h2, if_true]
      exact gitInv_markPlansAsDirty _ _ (gitInv_addParsed _ _ _ hg)
    · simp only [h2, Bool.false_eq_true, if_false]
      exact gitInv_addParsed _ _ _ hg

theorem gitInv_upsertFile (pf : ParseFn) (s : WState) (uri : String)
    (lg : PddlLanguage) (v : Nat) (txt : String) (force : Bool)
    (hg : GitInv s) : GitInv (s.upsertFile pf uri lg v txt force).1 := by
  rw [WState.upsertFile]
  have hg0 : GitInv (s.ensureFolder (folderPathOf uri)) :=
    gitInv_ensureFolder s _ hg
  cases hfi : (s.ensureFolder (folderPathOf uri)).getFileInfo uri with
  | some fi =>
    simp only
    by_cases hu : (WState.fileUpdate fi v txt force).2
    · simp only [hu, if_true]
      apply gitInv_updateFileAt_const _ _ _ hg0
      have := gitInv_getFileInfo _ _ _ hg0 hfi
      rw [WState.fileUpdate]
      by_cases hc : v > fi.version || force
      · rw [if_pos hc]
        exact this.2.symm
      · rw [if_neg hc]
        exact this.2.symm
    · simp only [hu, Bool.false_eq_true, if_false]
      exact hg0
  | none =>
    simp only
    exact gitInv_insertFile _ _ _ _ _ _ hg0

theorem gitInv_reParseFile (pf : ParseFn) (s : WState) (f : WFile)
    (hg : GitInv s) : GitInv (s.reParseFile pf f).1 := by
  rw [WState.reParseFile]
  apply gitInv_emitIfNew
  have hg0 : GitInv (s.ensureFolder (folderPathOf f.fileUri)) :=
    gitInv_ensureFolder s _ hg
  apply gitInv_setFolderFiles _ _ _ hg0
  intro e he
  rcases mem_folderAdd he with he | ⟨heq, hgit⟩
  · rw [removeA] at he
    have he' := List.mem_filter.mp he
    cases hl : lookupA (s.ensureFolder (folderPathOf f.fileUri)).folders
        (folderPathOf f.fileUri) with
    | some files =>
      rw [hl] at he'
      exact gitInv_lookup _ _ files hg0 hl e he'.1
    | none =>
      rw [hl] at he'
      cases he'.1
  · subst heq
    exact ⟨hgit, rfl⟩

theorem gitInv_parseAllDirty (pf : ParseFn) (s : WState)
    (hg : GitInv s) : GitInv (s.parseAllDirty pf) := by
  rw [WState.parseAllDirty]
  exact foldl_preserve (fun st a ha => gitInv_reParseFile pf st a ha) _ _ hg

theorem gitInv_upsertAndParseFile (pf : ParseFn) (s : WState) (uri : String)
    (lg : PddlLanguage) (v : Nat) (txt : String)
    (hg : GitInv s) : GitInv (s.upsertAndParseFile pf uri lg v txt).1 := by
  rw [WState.upsertAndParseFile]
  by_cases hs : (s.upsertFile pf uri lg v txt false).2.status == .dirty
  · simp only [hs, if_true]
    exact gitInv_reParseFile _ _ _ (gitInv_upsertFile _ _ _ _ _ _ _ hg)
  · simp only [hs, Bool.false_eq_true, if_false]
    exact gitInv_upsertFile _ _ _ _ _ _ _ hg

theorem gitInv_removeFile (s : WState) (uri : String) (rar : Bool)
    (hg : GitInv s) : GitInv (s.removeFile uri rar).1 := by
  rw [WState.removeFile]
  by_cases hc : s.hasExplicitAssociations uri && !rar
  · simp only [hc, if_true]
    exact hg
  · simp only [hc, Bool.false_eq_true, if_false]
    cases hl : lookupA s.folders (folderPathOf uri) with
    | some files =>
      simp only
      cases lookupA files uri with
      | some fi =>
        apply gitInv_setFolderFiles _ _ _ (gitInv_emitIfNew _ _ _ hg)
        intro e he
        rw [removeA] at he
        have he' := List.mem_filter.mp he
        exact gitInv_lookup s _ files hg hl e he'.1
      | none => exact hg
    | none => exact hg

theorem gitInv_applyOp (pf : ParseFn) (s : WState) (op : WOp)
    (hg : GitInv s) : GitInv (applyOp pf s op) := by
  cases op with
  | upsert uri lg v txt force => exact gitInv_upsertFile pf s uri lg v txt force hg
  | upsertAndParse uri lg v txt => exact gitInv_upsertAndParseFile pf s uri lg v txt hg
  | reparse uri =>
    rw [applyOp]
    cases s.getFileInfo uri with
    | some fi => exact gitInv_reParseFile pf s fi hg
    | none => exact hg
  | batchReparse => exact gitInv_parseAllDirty pf s hg
  | removeOp uri rar => exact gitInv_removeFile s uri rar hg
  | invalidate uri =>
    rw [applyOp]
    cases s.getFileInfo uri with
    | some fi => exact gitInv_invalidateDiagnostics s fi hg
    | none => exact hg
  | assocProblemToDomain a b => exact gitInv_of_folders_eq rfl hg
  | assocPlanToProblem a b => exact gitInv_of_folders_eq rfl hg

theorem gitInv_applyOps (pf : ParseFn) (ops : List WOp) :
    GitInv (applyOps pf emptyState ops) := by
  rw [applyOps]
  exact foldl_preserve (fun st a ha => gitInv_applyOp pf st a ha) _ _
    (by intro fe hfe e he; cases hfe)

theorem mem_foldr_values {folders : List (String × FolderFiles)} {f : WFile}
    (h : f ∈ folders.foldr (fun fp acc => valuesA fp.2 ++ acc) []) :
    ∃ fe ∈ folders, ∃ u, (u, f) ∈ fe.2 := by
  induction folders with
  | nil => cases h
  | cons fe rest ih =>
    simp only [List.foldr_cons] at h
    rcases List.mem_append.mp h with h | h
    · simp only [valuesA, List.mem_map] at h
      obtain ⟨e, he, heq⟩ := h
      refine ⟨fe, List.mem_cons_self _ _, e.1, ?_⟩
      rw [← heq]
      exact he
    · obtain ⟨fe', hfe', hu⟩ := ih h
      exact ⟨fe', List.mem_cons_of_mem _ hfe', hu⟩

theorem mem_getAllFiles {s : WState} {f : WFile}
    (h : f ∈ s.getAllFiles) :
    ∃ fe ∈ s.folders, ∃ u, (u, f) ∈ fe.2 := by
  rw [WState.getAllFiles] at h
  exact mem_foldr_values h

def c9pf : ParseFn :=
  fun uri lg v txt => ⟨uri, lg, v, .parsed, txt, .unknown, "", "", ""⟩

/-- C9: after any sequence of workspace operations from the empty workspace
(under any parser), no file with the `git` URI scheme is stored: it appears
neither among `getAllFiles` nor via `getFileInfo` at any git-scheme URI —
even though upserting a new file still returns the parsed `FileInfo`
itself. -/
theorem C9_git_scheme_files_never_stored :
    (∀ (pf : ParseFn) (ops : List WOp),
      (∀ f ∈ (applyOps pf emptyState ops).getAllFiles,
        uriScheme f.fileUri ≠ "git") ∧
      (∀ uri, uriScheme uri = "git" →
        (applyOps pf emptyState ops).getFileInfo uri = none)) ∧
    (∀ (pf : ParseFn) (s : WState) (uri : String) (lg : PddlLanguage)
      (v : Nat) (txt : String),
      s.getFileInfo uri = none →
      (s.upsertFile pf uri lg v txt false).2 = pf uri lg v txt) := by
  constructor
  · intro pf ops
    have hg := gitInv_applyOps pf ops
    constructor
    · intro f hf
      obtain ⟨fe, hfe, u, hu⟩ := mem_getAllFiles hf
      exact (hg fe hfe (u, f) hu).1
    · intro uri huri
      cases hfi : (applyOps pf emptyState ops).getFileInfo uri with
      | some fi =>
        have := gitInv_getFileInfo _ _ _ hg hfi
        exact absurd (this.2 ▸ huri) this.1
      | none => rfl
  · intro pf s uri lg v txt h
    rw [WState.upsertFile]
    have h0 : (s.ensureFolder (folderPathOf uri)).getFileInfo uri = none := by
      rw [WState.ensureFolder]
      cases hl : lookupA s.folders (folderPathOf uri) with
      | some files =>
        exact h
      | none =>
        rw [WState.getFileInfo] at h ⊢
        show (match lookupA (setA s.folders (folderPathOf uri) [])
            (folderPathOf uri) with
          | some files => lookupA files uri
          | none => none) = none
        rw [lookupA_setA]
        simp [lookupA]
    rw [h0]
    rfl

/-- C9 witness: a run that stores one ordinary file (whose scheme is not
git), a git URI that resolves to nothing, and an upsert at a git URI that
still returns the parsed file. -/
theorem C9_git_scheme_files_never_stored_witness :
    ((c9pf "file:///dir/a.pddl" .PDDL 1 "x") ∈
      (applyOps c9pf emptyState
        [.upsert "file:///dir/a.pddl" .PDDL 1 "x" false]).getAllFiles ∧
     uriScheme (c9pf "file:///dir/a.pddl" .PDDL 1 "x").fileUri ≠ "git") ∧
    (applyOps c9pf emptyState
      [.upsert "file:///dir/a.pddl" .PDDL 1 "x" false]).getFileInfo
        "git:///dir/b.pddl" = none ∧
    (emptyState.upsertFile c9pf "git:///dir/b.pddl" .PDDL 1 "y" false).2 =
      c9pf "git:///dir/b.pddl" .PDDL 1 "y" := by
  refine ⟨⟨by decide, ?_⟩, ?_, ?_⟩
  · exact (C9_git_scheme_files_never_stored.1 c9pf
      [.upsert "file:///dir/a.pddl" .PDDL 1 "x" false]).1 _ (by decide)
  · exact (C9_git_scheme_files_never_stored.1 c9pf
      [.upsert "file:///dir/a.pddl" .PDDL 1 "x" false]).2 _ (by decide)
  · exact C9_git_scheme_files_never_stored.2 c9pf emptyState _ _ _ _ (by decide)

/-! ## Claim C1: invalidation cascade -/

/-- The effect of `invalidateDiagnostics` on a stored file: only the status
is set to `Parsed`; text, version and all name fields are preserved. -/
def setParsed (f : WFile) : WFile := { f with status := FileStatus.parsed }

theorem setParsed_idem (f : WFile) : setParsed (setParsed f) = setParsed f := rfl

/-- Relation between a file and its possibly-invalidated version. -/
def fileRel (f g : WFile) : Prop := g = f ∨ g = setParsed f

/-- Entry-wise version of `fileRel`, keys preserved. -/
def entryRel (x y : String × WFile) : Prop := y.1 = x.1 ∧ fileRel x.2 y.2

/-- Folder-wise version, folder paths preserved. -/
def folderRel (a b : String × FolderFiles) : Prop :=
  b.1 = a.1 ∧ List.Forall₂ entryRel a.2 b.2

/-- A state and any state reachable from it by invalidations only: same
folder and file skeleton, each stored file unchanged or status-parsed. -/
def stRel (s t : WState) : Prop := List.Forall₂ folderRel s.folders t.folders

theorem fileRel_refl (f : WFile) : fileRel f f := Or.inl rfl

theorem fileRel_trans {a b c : WFile} (h1 : fileRel a b) (h2 : fileRel b c) :
    fileRel a c := by
  rcases h1 with rfl | rfl
  · exact h2
  · rcases h2 with rfl | rfl
    · exact Or.inr rfl
    · exact Or.inr (setParsed_idem a)

theorem fileRel_fileUri {a b : WFile} (h : fileRel a b) :
    b.fileUri = a.fileUri := by
  rcases h with rfl | rfl <;> rfl

theorem forall₂_trans {α : Type} {R : α → α → Prop}
    (hR : ∀ a b c, R a b → R b c → R a c) :
    ∀ {l1 l2 l3 : List α}, List.Forall₂ R l1 l2 → List.Forall₂ R l2 l3 →
      List.Forall₂ R l1 l3 := by
  intro l1 l2 l3 h12
  induction h12 generalizing l3 with
  | nil =>
    intro h23
    cases h23
    exact .nil
  | cons hab h12b ih =>
    intro h23
    cases h23 with
    | cons hbc h23b => exact .cons (hR _ _ _ hab hbc) (ih h23b)

theorem forall₂_refl_of {α : Type} {R : α → α → Prop}
    (hR : ∀ a, R a a) : ∀ l : List α, List.Forall₂ R l l := by
  intro l
  induction l with
  | nil => exact .nil
  | cons a tl ih => exact .cons (hR a) ih

theorem forall₂_map_self {α : Type} {R : α → α → Prop} {h : α → α}
    (hh : ∀ a, R a (h a)) : ∀ l : List α, List.Forall₂ R l (l.map h) := by
  intro l
  induction l with
  | nil => exact .nil
  | cons a tl ih => exact .cons (hh a) ih

theorem forall₂_exists_right {α : Type} {R : α → α → Prop}
    {l l' : List α} (h : List.Forall₂ R l l') {a : α} (ha : a ∈ l) :
    ∃ b ∈ l', R a b := by
  induction h with
  | nil => cases ha
  | cons hxy hrest ih =>
    rcases List.mem_cons.mp ha with rfl | ha
    · exact ⟨_, List.mem_cons_self _ _, hxy⟩
    · obtain ⟨b, hb, hab⟩ := ih ha
      exact ⟨b, List.mem_cons_of_mem _ hb, hab⟩

theorem forall₂_filter_of {α : Type} {R : α → α → Prop} {p : α → Bool}
    (hp : ∀ a b, R a b → p a = p b) :
    ∀ {l l' : List α}, List.Forall₂ R l l' →
      List.Forall₂ R (l.filter p) (l'.filter p) := by
  intro l l' h
  induction h with
  | nil => exact .nil
  | cons hab hrest ih =>
    rename_i a b l1 l2
    rw [List.filter_cons, List.filter_cons, ← hp a b hab]
    by_cases hpa : p a
    · rw [if_pos hpa, if_pos hpa]
      exact .cons hab ih
    · rw [if_neg hpa, if_neg hpa]
      exact ih

theorem forall₂_values {files files' : FolderFiles}
    (h : List.Forall₂ entryRel files files') :
    List.Forall₂ fileRel (valuesA files) (valuesA files') := by
  induction h with
  | nil => exact .nil
  | cons hxy hrest ih => exact .cons hxy.2 ih

theorem stRel_refl (s : WState) : stRel s s :=
  forall₂_refl_of
    (fun a => ⟨rfl, forall₂_refl_of (fun e => ⟨rfl, fileRel_refl e.2⟩) a.2⟩)
    s.folders

theorem stRel_trans {s t u : WState} (h1 : stRel s t) (h2 : stRel t u) :
    stRel s u := by
  refine forall₂_trans ?_ h1 h2
  intro a b c hab hbc
  refine ⟨hbc.1.trans hab.1, ?_⟩
  refine forall₂_trans ?_ hab.2 hbc.2
  intro x y z hxy hyz
  exact ⟨hyz.1.trans hxy.1, fileRel_trans hxy.2 hyz.2⟩

theorem lookupA_entry_rel {files files' : FolderFiles}
    (h : List.Forall₂ entryRel files files') (u : String) :
    (lookupA files u = none ∧ lookupA files' u = none) ∨
    (∃ f f', lookupA files u = some f ∧ lookupA files' u = some f' ∧
      fileRel f f') := by
  induction h with
  | nil => exact Or.inl ⟨rfl, rfl⟩
  | cons hxy hrest ih =>
    rename_i x y l1 l2
    obtain ⟨hk, hv⟩ := hxy
    by_cases hu : x.1 = u
    · right
      refine ⟨x.2, y.2, ?_, ?_, hv⟩
      · simp [lookupA, hu]
      · simp [lookupA, hk, hu]
    · have hx : (x.1 == u) = false := by simpa using hu
      have hy : (y.1 == u) = false := by
        rw [hk]
        exact hx
      simpa [lookupA, hx, hy] using ih

theorem lookupA_folder_rel {F F' : List (String × FolderFiles)}
    (h : List.Forall₂ folderRel F F') (k : String) :
    (lookupA F k = none ∧ lookupA F' k = none) ∨
    (∃ files files', lookupA F k = some files ∧ lookupA F' k = some files' ∧
      List.Forall₂ entryRel files files') := by
  induction h with
  | nil => exact Or.inl ⟨rfl, rfl⟩
  | cons hxy hrest ih =>
    rename_i x y l1 l2
    obtain ⟨hk, hv⟩ := hxy
    by_cases hu : x.1 = k
    · right
      refine ⟨x.2, y.2, ?_, ?_, hv⟩
      · simp [lookupA, hu]
      · simp [lookupA, hk, hu]
    · have hx : (x.1 == k) = false := by simpa using hu
      have hy : (y.1 == k) = false := by
        rw [hk]
        exact hx
      simpa [lookupA, hx, hy] using ih

/-- Per-URI consequence of `stRel`: every stored file is unchanged or
status-parsed. -/
theorem stRel_getFileInfo {s t : WState} (h : stRel s t) (u : String) :
    t.getFileInfo u = s.getFileInfo u ∨
    t.getFileInfo u = (s.getFileInfo u).map setParsed := by
  rw [WState.getFileInfo, WState.getFileInfo]
  rcases lookupA_folder_rel h (folderPathOf u) with ⟨h1, h2⟩ |
    ⟨files, files', h1, h2, hrel⟩
  · rw [h1, h2]
    exact Or.inl rfl
  · rw [h1, h2]
    show lookupA files' u = lookupA files u ∨
      lookupA files' u = (lookupA files u).map setParsed
    rcases lookupA_entry_rel hrel u with ⟨e1, e2⟩ | ⟨f, f', e1, e2, hf⟩
    · rw [e1, e2]
      exact Or.inl rfl
    · rw [e1, e2]
      rcases hf with rfl | rfl
      · exact Or.inl rfl
      · exact Or.inr rfl

theorem getFileInfo_congr_folders {s s' : WState}
    (h : s'.folders = s.folders) (u : String) :
    s'.getFileInfo u = s.getFileInfo u := by
  rw [WState.getFileInfo, WState.getFileInfo, h]

theorem lookupA_map_valfun {α : Type} (m : List (String × α)) (F : α → α)
    (k : String) :
    lookupA (m.map (fun e => (e.1, F e.2))) k = (lookupA m k).map F := by
  induction m with
  | nil => rfl
  | cons e rest ih =>
    by_cases hk : e.1 = k
    · simp [lookupA, hk]
    · simp [lookupA, beq_false_of_ne hk, ih]

theorem lookupA_map_if (files : FolderFiles) (u0 : String)
    (g : WFile → WFile) (u : String) :
    lookupA (files.map (fun e => if e.1 == u0 then (e.1, g e.2) else e)) u =
      if u = u0 then (lookupA files u).map g else lookupA files u := by
  induction files with
  | nil => by_cases h : u = u0 <;> simp [lookupA, h]
  | cons e rest ih =>
    by_cases he0 : e.1 = u0
    · by_cases heu : e.1 = u
      · subst he0
        subst heu
        simp [lookupA]
      · subst he0
        have hne : u ≠ e.1 := fun hc => heu hc.symm
        simp only [List.map_cons, beq_self_eq_true, if_true, lookupA,
          beq_false_of_ne heu, Bool.false_eq_true, if_false, ih, hne]
    · by_cases heu : e.1 = u
      · subst heu
        simp only [List.map_cons, beq_false_of_ne he0, Bool.false_eq_true,
          if_false, lookupA, beq_self_eq_true, if_true]
        rw [if_neg (fun hc : e.1 = u0 => he0 hc)]
      · simp only [List.map_cons, beq_false_of_ne he0, Bool.false_eq_true,
          if_false, lookupA, beq_false_of_ne heu, ih]

theorem getFileInfo_updateFileAt (s : WState) (u0 : String)
    (g : WFile → WFile) (u : String) :
    (s.updateFileAt u0 g).getFileInfo u =
      if u = u0 then (s.getFileInfo u).map g else s.getFileInfo u := by
  rw [WState.getFileInfo, WState.updateFileAt]
  show (match lookupA (s.folders.map (fun fp =>
      (fp.1, fp.2.map (fun e => if e.1 == u0 then (e.1, g e.2) else e))))
      (folderPathOf u) with
    | some files => lookupA files u
    | none => none) = _
  rw [lookupA_map_valfun]
  rw [WState.getFileInfo]
  cases hl : lookupA s.folders (folderPathOf u) with
  | none =>
    by_cases h : u = u0 <;> simp [h]
  | some files =>
    simp only [Option.map_some]
    exact lookupA_map_if files u0 g u

theorem getFileInfo_invalidate (s : WState) (f0 : WFile) (u : String) :
    (s.invalidateDiagnostics f0).getFileInfo u =
      if u = f0.fileUri then (s.getFileInfo u).map setParsed
      else s.getFileInfo u := by
  rw [WState.invalidateDiagnostics]
  rw [getFileInfo_congr_folders (emitIfNew_folders _ _ _)]
  exact getFileInfo_updateFileAt s f0.fileUri _ u

theorem stRel_invalidate (t : WState) (f : WFile) :
    stRel t (t.invalidateDiagnostics f) := by
  rw [WState.invalidateDiagnostics]
  show List.Forall₂ folderRel t.folders _
  rw [emitIfNew_folders]
  rw [WState.updateFileAt]
  apply forall₂_map_self
  intro fe
  refine ⟨rfl, ?_⟩
  apply forall₂_map_self
  intro e
  by_cases he : e.1 == f.fileUri
  · rw [if_pos he]
    exact ⟨rfl, Or.inr rfl⟩
  · rw [if_neg he]
    exact ⟨rfl, fileRel_refl e.2⟩

theorem stRel_foldl {α : Type} {step : WState → α → WState}
    (hstep : ∀ t a, stRel t (step t a)) :
    ∀ (l : List α) (t : WState), stRel t (l.foldl step t) := by
  intro l
  induction l with
  | nil => intro t; exact stRel_refl t
  | cons a tl ih =>
    intro t
    exact stRel_trans (hstep t a) (ih (step t a))

theorem stRel_markPlansAsDirty (t : WState) (p : WFile) :
    stRel t (t.markPlansAsDirty p) := by
  rw [WState.markPlansAsDirty]
  exact stRel_trans
    (stRel_foldl (fun st a => stRel_invalidate st a) _ t)
    (stRel_foldl (fun st a => stRel_invalidate st a) _ _)

theorem stRel_invStep (t : WState) (p : WFile) :
    stRel t ((t.invalidateDiagnostics p).markPlansAsDirty p) :=
  stRel_trans (stRel_invalidate t p) (stRel_markPlansAsDirty _ p)

/-- Invalidation-only evolutions never lose a parsed-stored file. -/
theorem parsedKept_of_stRel {a b : WState} (h : stRel a b) (u : String)
    (x : WFile) (hx : a.getFileInfo u = some (setParsed x)) :
    b.getFileInfo u = some (setParsed x) := by
  rcases stRel_getFileInfo h u with heq | heq
  · rw [heq, hx]
  · rw [heq, hx]
    rfl

theorem foldInv_keepsParsed (L : List WFile) :
    ∀ (t : WState) (u : String) (x : WFile),
      t.getFileInfo u = some (setParsed x) →
      ((L.foldl (fun st y => st.invalidateDiagnostics y) t).getFileInfo u =
        some (setParsed x)) := by
  intro t u x hx
  exact parsedKept_of_stRel
    (stRel_foldl (fun st a => stRel_invalidate st a) L t) u x hx

theorem foldInv_hits (L : List WFile) :
    ∀ (t : WState) (u : String) (v : WFile),
      (∃ y ∈ L, y.fileUri = u) → t.getFileInfo u = some v →
      ((L.foldl (fun st y => st.invalidateDiagnostics y) t).getFileInfo u =
        some (setParsed v)) := by
  induction L with
  | nil =>
    intro t u v hy _
    obtain ⟨y, hy, _⟩ := hy
    cases hy
  | cons a L' ih =>
    intro t u v hy hv
    rw [List.foldl_cons]
    by_cases hau : a.fileUri = u
    · have h1 : (t.invalidateDiagnostics a).getFileInfo u =
          some (setParsed v) := by
        rw [getFileInfo_invalidate, if_pos hau.symm, hv]
        rfl
      exact foldInv_keepsParsed L' _ u v h1
    · have h1 : (t.invalidateDiagnostics a).getFileInfo u = some v := by
        rw [getFileInfo_invalidate, if_neg (fun hc => hau hc.symm)]
        exact hv
      obtain ⟨y, hy, hyu⟩ := hy
      rcases List.mem_cons.mp hy with rfl | hy
      · exact absurd hyu hau
      · exact ih _ u v ⟨y, hy, hyu⟩ h1

theorem stRel_getPlanFiles {s t : WState} (h : stRel s t) (p : WFile) :
    List.Forall₂ fileRel (s.getPlanFiles p) (t.getPlanFiles p) := by
  rw [WState.getPlanFiles, WState.getPlanFiles]
  rcases lookupA_folder_rel h (folderPathOf p.fileUri) with ⟨h1, h2⟩ |
    ⟨files, files', h1, h2, hrel⟩
  · rw [h1, h2]
    exact .nil
  · rw [h1, h2]
    show List.Forall₂ fileRel
      (((valuesA files).filter WFile.isPlan).filter _)
      (((valuesA files').filter WFile.isPlan).filter _)
    apply forall₂_filter_of
      (fun a b hab => by rcases hab with rfl | rfl <;> rfl)
    apply forall₂_filter_of
      (fun a b hab => by rcases hab with rfl | rfl <;> rfl)
    exact forall₂_values hrel

theorem stRel_getHappeningsFiles {s t : WState} (h : stRel s t) (p : WFile) :
    List.Forall₂ fileRel (s.getHappeningsFiles p) (t.getHappeningsFiles p) := by
  rw [WState.getHappeningsFiles, WState.getHappeningsFiles]
  rcases lookupA_folder_rel h (folderPathOf p.fileUri) with ⟨h1, h2⟩ |
    ⟨files, files', h1, h2, hrel⟩
  · rw [h1, h2]
    exact .nil
  · rw [h1, h2]
    show List.Forall₂ fileRel
      (((valuesA files).filter WFile.isHappenings).filter _)
      (((valuesA files').filter WFile.isHappenings).filter _)
    apply forall₂_filter_of
      (fun a b hab => by rcases hab with rfl | rfl <;> rfl)
    apply forall₂_filter_of
      (fun a b hab => by rcases hab with rfl | rfl <;> rfl)
    exact forall₂_values hrel

/-- Workspace wellformedness matching reachable states: entries are keyed by
their own file URI, stored in the folder of that URI, and keys do not
repeat. -/
abbrev WSInv (s : WState) : Prop :=
  (∀ fe ∈ s.folders, ∀ e ∈ fe.2,
    e.1 = e.2.fileUri ∧ folderPathOf e.1 = fe.1) ∧
  (s.folders.map Prod.fst).Nodup ∧
  (∀ fe ∈ s.folders, (fe.2.map Prod.fst).Nodup)

theorem wsInv_stored {s : WState} (hws : WSInv s) {fp : String}
    {files : FolderFiles} (hl : lookupA s.folders fp = some files)
    {p : WFile} (hp : p ∈ valuesA files) :
    s.getFileInfo p.fileUri = some p := by
  have hfe : (fp, files) ∈ s.folders := mem_of_lookupA hl
  obtain ⟨e, he, heq⟩ := List.mem_map.mp hp
  obtain ⟨huf, hfp⟩ := hws.1 _ hfe e he
  subst heq
  rw [WState.getFileInfo, ← huf, hfp, hl]
  show lookupA files e.1 = some e.2
  exact lookupA_eq_some_of_mem he (hws.2.2 _ hfe)

theorem getProblemFiles_stored (s : WState) (d : WFile) (hws : WSInv s) :
    ∀ p ∈ s.getProblemFiles d, s.getFileInfo p.fileUri = some p := by
  intro p hp
  rw [WState.getProblemFiles] at hp
  cases hl : lookupA s.folders (folderPathOf d.fileUri) with
  | none =>
    rw [hl] at hp
    cases hp
  | some files =>
    rw [hl] at hp
    have hp2 : p ∈ ((valuesA files).filter WFile.isProblem).filter
        (fun problemInfo => lowerCaseEquals problemInfo.domainName d.name) := hp
    exact wsInv_stored hws hl
      (List.mem_of_mem_filter (List.mem_of_mem_filter hp2))

theorem getPlanFiles_stored (s : WState) (p0 : WFile) (hws : WSInv s) :
    ∀ pl ∈ s.getPlanFiles p0, s.getFileInfo pl.fileUri = some pl := by
  intro pl hpl
  rw [WState.getPlanFiles] at hpl
  cases hl : lookupA s.folders (folderPathOf p0.fileUri) with
  | none =>
    rw [hl] at hpl
    cases hpl
  | some files =>
    rw [hl] at hpl
    exact wsInv_stored hws hl
      (List.mem_of_mem_filter (List.mem_of_mem_filter hpl))

theorem getHappeningsFiles_stored (s : WState) (p0 : WFile) (hws : WSInv s) :
    ∀ hf ∈ s.getHappeningsFiles p0, s.getFileInfo hf.fileUri = some hf := by
  intro hf hhf
  rw [WState.getHappeningsFiles] at hhf
  cases hl : lookupA s.folders (folderPathOf p0.fileUri) with
  | none =>
    rw [hl] at hhf
    cases hhf
  | some files =>
    rw [hl] at hhf
    exact wsInv_stored hws hl
      (List.mem_of_mem_filter (List.mem_of_mem_filter hhf))

theorem markPlansAsDirty_eq (t1 : WState) (p : WFile) :
    t1.markPlansAsDirty p =
      ((((t1.getPlanFiles p).foldl
          (fun st planInfo => st.invalidateDiagnostics planInfo)
          t1).getHappeningsFiles p).foldl
        (fun st happeningsInfo => st.invalidateDiagnostics happeningsInfo)
        ((t1.getPlanFiles p).foldl
          (fun st planInfo => st.invalidateDiagnostics planInfo) t1)) := rfl

theorem markProblemsAsDirty_eq (s : WState) (d : WFile) :
    s.markProblemsAsDirty d =
      (s.getProblemFiles d).foldl
        (fun st q => (st.invalidateDiagnostics q).markPlansAsDirty q) s := rfl

/-- The heart of the amended cascade claim: folding the per-problem
invalidation step over a list of problems stored in `s` marks each of them,
and each of their matching plan and happenings files, as `Parsed` with all
other fields preserved. -/
theorem cascade_fold (s : WState) (hws : WSInv s) :
    ∀ (ps : List WFile) (t : WState), stRel s t →
      (∀ q ∈ ps, s.getFileInfo q.fileUri = some q) →
      ∀ p ∈ ps,
        ((ps.foldl
            (fun st q => (st.invalidateDiagnostics q).markPlansAsDirty q)
            t).getFileInfo p.fileUri = some (setParsed p)) ∧
        (∀ pl ∈ s.getPlanFiles p,
          (ps.foldl
            (fun st q => (st.invalidateDiagnostics q).markPlansAsDirty q)
            t).getFileInfo pl.fileUri = some (setParsed pl)) ∧
        (∀ hf ∈ s.getHappeningsFiles p,
          (ps.foldl
            (fun st q => (st.invalidateDiagnostics q).markPlansAsDirty q)
            t).getFileInfo hf.fileUri = some (setParsed hf)) := by
  intro ps
  induction ps with
  | nil =>
    intro t _ _ p hp
    cases hp
  | cons q ps' ih =>
    intro t hrel hstored p hp
    rw [List.foldl_cons]
    have hrel1 : stRel s (t.invalidateDiagnostics q) :=
      stRel_trans hrel (stRel_invalidate t q)
    have hrel2 : stRel s ((t.invalidateDiagnostics q).markPlansAsDirty q) :=
      stRel_trans hrel (stRel_invStep t q)
    rcases List.mem_cons.mp hp with heq | hp'
    · subst heq
      have hq : s.getFileInfo p.fileUri = some p :=
        hstored p (List.mem_cons_self _ _)
      have h1 : (t.invalidateDiagnostics p).getFileInfo p.fileUri =
          some (setParsed p) := by
        rw [getFileInfo_invalidate, if_pos rfl]
        rcases stRel_getFileInfo hrel p.fileUri with heq | heq <;>
          rw [heq, hq] <;> rfl
      have h2 : ((t.invalidateDiagnostics p).markPlansAsDirty p).getFileInfo
          p.fileUri = some (setParsed p) :=
        parsedKept_of_stRel (stRel_markPlansAsDirty _ p) _ p h1
      have hplans : ∀ pl ∈ s.getPlanFiles p,
          ((t.invalidateDiagnostics p).markPlansAsDirty p).getFileInfo
            pl.fileUri = some (setParsed pl) := by
        intro pl hpl
        have hplst : s.getFileInfo pl.fileUri = some pl :=
          getPlanFiles_stored s p hws pl hpl
        obtain ⟨v, hv, hvc⟩ : ∃ v,
            (t.invalidateDiagnostics p).getFileInfo pl.fileUri = some v ∧
            setParsed v = setParsed pl := by
          rcases stRel_getFileInfo hrel1 pl.fileUri with heq | heq
          · exact ⟨pl, by rw [heq, hplst], rfl⟩
          · exact ⟨setParsed pl, by rw [heq, hplst]; rfl, setParsed_idem pl⟩
        obtain ⟨y, hy, hyrel⟩ :=
          forall₂_exists_right (stRel_getPlanFiles hrel1 p) hpl
        rw [markPlansAsDirty_eq]
        apply foldInv_keepsParsed
        have hfold := foldInv_hits
          ((t.invalidateDiagnostics p).getPlanFiles p)
          (t.invalidateDiagnostics p) pl.fileUri v
          ⟨y, hy, fileRel_fileUri hyrel⟩ hv
        rw [hvc] at hfold
        exact hfold
      have hhaps : ∀ hf ∈ s.getHappeningsFiles p,
          ((t.invalidateDiagnostics p).markPlansAsDirty p).getFileInfo
            hf.fileUri = some (setParsed hf) := by
        intro hf hhf
        have hfst : s.getFileInfo hf.fileUri = some hf :=
          getHappeningsFiles_stored s p hws hf hhf
        have hrelS1 : stRel s (((t.invalidateDiagnostics p).getPlanFiles
            p).foldl (fun st planInfo => st.invalidateDiagnostics planInfo)
            (t.invalidateDiagnostics p)) :=
          stRel_trans hrel1
            (stRel_foldl (fun st a => stRel_invalidate st a) _ _)
        obtain ⟨v, hv, hvc⟩ : ∃ v,
            (((t.invalidateDiagnostics p).getPlanFiles p).foldl
              (fun st planInfo => st.invalidateDiagnostics planInfo)
              (t.invalidateDiagnostics p)).getFileInfo hf.fileUri = some v ∧
            setParsed v = setParsed hf := by
          rcases stRel_getFileInfo hrelS1 hf.fileUri with heq | heq
          · exact ⟨hf, by rw [heq, hfst], rfl⟩
          · exact ⟨setParsed hf, by rw [heq, hfst]; rfl, setParsed_idem hf⟩
        obtain ⟨y, hy, hyrel⟩ :=
          forall₂_exists_right (stRel_getHappeningsFiles hrelS1 p) hhf
        rw [markPlansAsDirty_eq]
        have hfold := foldInv_hits _ _ hf.fileUri v
          ⟨y, hy, fileRel_fileUri hyrel⟩ hv
        rw [hvc] at hfold
        exact hfold
      have hkeep : ∀ (u : String) (x : WFile),
          ((t.invalidateDiagnostics p).markPlansAsDirty p).getFileInfo u =
            some (setParsed x) →
          (ps'.foldl
            (fun st q => (st.invalidateDiagnostics q).markPlansAsDirty q)
            ((t.invalidateDiagnostics p).markPlansAsDirty p)).getFileInfo u =
            some (setParsed x) := by
        intro u x hx
        exact parsedKept_of_stRel
          (stRel_foldl (fun st a => stRel_invStep st a) ps' _) u x hx
      exact ⟨hkeep _ p h2,
        fun pl hpl => hkeep _ pl (hplans pl hpl),
        fun hf hhf => hkeep _ hf (hhaps hf hhf)⟩
    · exact ih ((t.invalidateDiagnostics q).markPlansAsDirty q) hrel2
        (fun q' hq' => hstored q' (List.mem_cons_of_mem _ hq')) p hp'

theorem getFileInfo_ensureFolder (s : WState) (fp : String) (u : String) :
    (s.ensureFolder fp).getFileInfo u = s.getFileInfo u := by
  rw [WState.ensureFolder]
  cases hl : lookupA s.folders fp with
  | some files => rfl
  | none =>
    rw [WState.getFileInfo, WState.getFileInfo]
    show (match lookupA (setA s.folders fp []) (folderPathOf u) with
      | some files => lookupA files u
      | none => none) = _
    rw [lookupA_setA]
    by_cases hfp : folderPathOf u = fp
    · rw [if_pos hfp, hfp, hl]
      rfl
    · rw [if_neg hfp]

theorem getFileInfo_setFolderFiles (s : WState) (fp : String)
    (files : FolderFiles) (u : String) :
    (s.setFolderFiles fp files).getFileInfo u =
      if folderPathOf u = fp then lookupA files u else s.getFileInfo u := by
  rw [WState.getFileInfo, WState.setFolderFiles]
  show (match lookupA (setA s.folders fp files) (folderPathOf u) with
    | some fs => lookupA fs u
    | none => none) = _
  rw [lookupA_setA]
  by_cases hfp : folderPathOf u = fp
  · rw [if_pos hfp, if_pos hfp]
  · rw [if_neg hfp, if_neg hfp, WState.getFileInfo]

/-- `reParseFile` touches only the re-parsed URI: the stored file at every
other URI is unchanged. -/
theorem reParseFile_other_unchanged (pf : ParseFn) (s : WState) (f : WFile)
    (u : String) (hne : u ≠ f.fileUri)
    (hpf : (pf f.fileUri f.language f.version f.text).fileUri = f.fileUri) :
    (s.reParseFile pf f).1.getFileInfo u = s.getFileInfo u := by
  simp only [WState.reParseFile]
  rw [getFileInfo_congr_folders (emitIfNew_folders _ _ _)]
  rw [getFileInfo_setFolderFiles]
  by_cases hfp : folderPathOf u = folderPathOf f.fileUri
  · rw [if_pos hfp]
    rw [folderAdd]
    have hrm : lookupA (removeA ((lookupA
        (s.ensureFolder (folderPathOf f.fileUri)).folders
        (folderPathOf f.fileUri)).getD []) f.fileUri) u =
        s.getFileInfo u := by
      rw [lookupA_removeA, if_neg hne]
      rw [WState.ensureFolder]
      cases hl : lookupA s.folders (folderPathOf f.fileUri) with
      | some files =>
        rw [hl]
        show lookupA ((some files).getD []) u = _
        rw [WState.getFileInfo, hfp, hl]
        rfl
      | none =>
        rw [WState.getFileInfo, hfp, hl]
        show lookupA (((lookupA (setA s.folders (folderPathOf f.fileUri) [])
          (folderPathOf f.fileUri)).getD [])) u = none
        rw [lookupA_setA, if_pos rfl]
        rfl
    by_cases hg : uriScheme (pf f.fileUri f.language f.version f.text).fileUri
        != "git"
    · rw [if_pos hg, lookupA_setA, hpf, if_neg hne]
      exact hrm
    · rw [if_neg hg]
      exact hrm
  · rw [if_neg hfp]
    rw [getFileInfo_ensureFolder]

def c1Domain : WFile :=
  ⟨"file:///dir/domain.pddl", .PDDL, 1, .parsed, "(define (domain d1))",
    .domain, "d1", "", ""⟩

def c1Problem : WFile :=
  ⟨"file:///dir/problem.pddl", .PDDL, 1, .parsed,
    "(define (problem p1) (:domain d1))", .problem, "p1", "d1", ""⟩

def c1State : WState :=
  ⟨[("/dir", [("file:///dir/domain.pddl", c1Domain),
              ("file:///dir/problem.pddl", c1Problem)])], [], [], [], []⟩

def c1pf : ParseFn :=
  fun uri lg v txt => ⟨uri, lg, v, .parsed, txt, .domain, "d1", "", ""⟩

/-- C1 counterexample: a workspace holding a domain `d1` and a problem
referencing `d1` in the same folder, both `Parsed`.  Re-parsing the domain
via `reParseFile` leaves the problem file entirely unchanged — its status is
still `Parsed`, not `Dirty` as the claim states: `reParseFile` performs no
invalidation cascade at all (only `insertFile` does, and even that cascade
sets status `Parsed`, not `Dirty`). -/
theorem C1_counterexample :
    c1Problem ∈ c1State.getProblemFiles c1Domain ∧
    (c1State.reParseFile c1pf c1Domain).1.getFileInfo
      "file:///dir/problem.pddl" = some c1Problem ∧
    c1Problem.status = FileStatus.parsed ∧
    FileStatus.parsed ≠ FileStatus.dirty := by
  refine ⟨by decide, by decide, rfl, by decide⟩

/-- C1 amended: the invalidation cascade is performed by
`markProblemsAsDirty`, which `insertFile` runs when a domain is first
inserted — not by `reParseFile` or the batch re-parse, which touch no other
file.  The cascade sets every matching problem file in the domain's folder —
and, cascading, every plan and happenings file referencing those problems —
to status `Parsed` (not `Dirty`), preserving their text, version, and every
other field; and `reParseFile` leaves the file stored at every other URI
unchanged. -/
theorem C1_amended_cascade_sets_parsed (s : WState) (d : WFile)
    (hws : WSInv s) :
    (∀ p ∈ s.getProblemFiles d,
      ((s.markProblemsAsDirty d).getFileInfo p.fileUri =
        some (setParsed p)) ∧
      (∀ pl ∈ s.getPlanFiles p,
        (s.markProblemsAsDirty d).getFileInfo pl.fileUri =
          some (setParsed pl)) ∧
      (∀ hf ∈ s.getHappeningsFiles p,
        (s.markProblemsAsDirty d).getFileInfo hf.fileUri =
          some (setParsed hf))) ∧
    (∀ (pf : ParseFn) (f : WFile) (u : String),
      u ≠ f.fileUri →
      (pf f.fileUri f.language f.version f.text).fileUri = f.fileUri →
      (s.reParseFile pf f).1.getFileInfo u = s.getFileInfo u) := by
  constructor
  · intro p hp
    rw [markProblemsAsDirty_eq]
    exact cascade_fold s hws (s.getProblemFiles d) s (stRel_refl s)
      (getProblemFiles_stored s d hws) p hp
  · intro pf f u hne hpf
    exact reParseFile_other_unchanged pf s f u hne hpf

/-- C1 amended, witness: instantiation at the two-file workspace of the
counterexample. -/
theorem C1_amended_cascade_sets_parsed_witness :
    ((c1State.markProblemsAsDirty c1Domain).getFileInfo
      "file:///dir/problem.pddl" = some (setParsed c1Problem)) ∧
    (c1State.reParseFile c1pf c1Domain).1.getFileInfo
      "file:///dir/problem.pddl" = c1State.getFileInfo
      "file:///dir/problem.pddl" := by
  constructor
  · have h := ((C1_amended_cascade_sets_parsed c1State c1Domain
      (by decide)).1 c1Problem (by decide)).1
    exact h
  · exact (C1_amended_cascade_sets_parsed c1State c1Domain (by decide)).2
      c1pf c1Domain "file:///dir/problem.pddl" (by decide) rfl

end Pddl
